import Mathlib

/-!
Verification development for the product-metadata extraction backend
(`src/backend/metadata_agent.py`).

Strings are modelled as `List Char` where character-level reasoning is
needed (the `cleaner_tool` regex substitutions and the page-fetcher
block), and as Lean `String` elsewhere.  Python regular-expression
substitution `re.sub(r'\bW\b', rep, s, flags=re.IGNORECASE)` for an
all-word-character pattern `W` is embedded as a left-to-right scan
(`subAux`) that tracks whether the previous character was a word
character, matches the pattern case-insensitively, and checks the word
boundary after the match — exactly the semantics of the regex engine on
such patterns.  Case folding and character classes follow Python's
ASCII behaviour (`\w` = alphanumeric or underscore, `\s` = ASCII
whitespace).
-/

namespace MetadataAgent

/-- Word character, Python `\w` (ASCII): letter, digit or underscore. -/
def isWordChar (c : Char) : Bool :=
  c.isAlpha || c.isDigit || c == '_'

/-- Whitespace character, Python `\s` / `str.strip` (ASCII). -/
def isSpace (c : Char) : Bool :=
  c == ' ' || c == '\t' || c == '\n' || c == '\r' || c == '\x0b' || c == '\x0c'

/-- ASCII lower-casing of a character, as used by `str.lower()` and by
case-insensitive regex matching on ASCII patterns. -/
def lowC (c : Char) : Char :=
  match c with
  | 'A' => 'a' | 'B' => 'b' | 'C' => 'c' | 'D' => 'd' | 'E' => 'e'
  | 'F' => 'f' | 'G' => 'g' | 'H' => 'h' | 'I' => 'i' | 'J' => 'j'
  | 'K' => 'k' | 'L' => 'l' | 'M' => 'm' | 'N' => 'n' | 'O' => 'o'
  | 'P' => 'p' | 'Q' => 'q' | 'R' => 'r' | 'S' => 's' | 'T' => 't'
  | 'U' => 'u' | 'V' => 'v' | 'W' => 'w' | 'X' => 'x' | 'Y' => 'y'
  | 'Z' => 'z' | c => c

/-- Lower-case a character list (`str.lower()` on ASCII). -/
def lowerL (s : List Char) : List Char := s.map lowC

/-- Lower-case a `String` (`str.lower()` on ASCII). -/
def lowerS (s : String) : String := String.mk (lowerL s.data)

/-- Case-insensitive "starts with": the pattern is a prefix of the text
up to ASCII case. -/
def startsCI : List Char → List Char → Bool
  | [], _ => true
  | _ :: _, [] => false
  | p :: ps, c :: cs => (lowC p == lowC c) && startsCI ps cs

/-- Exact "starts with" on character lists. -/
def startsW : List Char → List Char → Bool
  | [], _ => true
  | _ :: _, [] => false
  | n :: ns, c :: cs => (n == c) && startsW ns cs

/-- Substring test (Python `needle in haystack`). -/
def hasSub (needle : List Char) : List Char → Bool
  | [] => needle.isEmpty
  | c :: rest => startsW needle (c :: rest) || hasSub needle rest

/-- Word boundary after an `n`-character match starting at the head of
`s`: the character at index `n` is absent or not a word character. -/
def bAfterOk (n : Nat) (s : List Char) : Bool :=
  match s.drop n with
  | [] => true
  | c :: _ => !isWordChar c

/-- One pass of `re.sub(r'\b(p::ps)\b', rep, ·, re.IGNORECASE)` for an
all-word-character pattern `p :: ps`: scan left to right; `prev` records
whether the previous character of the original string was a word
character (so a match may start only when `prev` is false); on a match
emit `rep` and resume after the matched characters. -/
def subAux (p : Char) (ps rep : List Char) : Bool → List Char → List Char
  | _, [] => []
  | prev, c :: rest =>
    if !prev && startsCI (p :: ps) (c :: rest) && bAfterOk (ps.length + 1) (c :: rest) then
      rep ++ subAux p ps rep true (rest.drop ps.length)
    else
      c :: subAux p ps rep (isWordChar c) rest
termination_by _ s => s.length
decreasing_by
  · simp only [List.length_cons, List.length_drop]
    omega
  · simp

/-- Whole-word case-insensitive substitution
(`re.sub(r'\bpat\b', rep, s, flags=re.IGNORECASE)`). -/
def subWW (pat rep s : List Char) : List Char :=
  match pat with
  | [] => s
  | p :: ps => subAux p ps rep false s

/-- Apply `g` to every maximal run of word characters, leaving all other
characters in place. -/
def mapRuns (g : List Char → List Char) : List Char → List Char
  | [] => []
  | c :: rest =>
    if isWordChar c then
      g (c :: rest.takeWhile isWordChar) ++ mapRuns g (rest.dropWhile isWordChar)
    else
      c :: mapRuns g rest
termination_by s => s.length
decreasing_by
  · exact Nat.lt_succ_of_le ((List.dropWhile_sublist isWordChar).length_le)
  · simp

/-- Run-level action of a single whole-word substitution: a run equal to
the pattern up to case becomes the replacement. -/
def gsub (pat rep r : List Char) : List Char :=
  if lowerL r = lowerL pat then rep else r

/-- Collapse of whitespace runs to a single space
(`re.sub(r'\s+', ' ', s)`): a maximal run of whitespace becomes one
space (emitted at the run's last character). -/
def collapse : List Char → List Char
  | [] => []
  | c :: rest =>
    if isSpace c then
      match rest with
      | [] => [' ']
      | d :: rest2 => if isSpace d then collapse (d :: rest2) else ' ' :: collapse (d :: rest2)
    else c :: collapse rest

/-- Remove leading whitespace (`str.lstrip()` on ASCII whitespace). -/
def lstrip (s : List Char) : List Char := s.dropWhile isSpace

/-- Remove trailing whitespace (`str.rstrip()` on ASCII whitespace). -/
def rstrip (s : List Char) : List Char := (s.reverse.dropWhile isSpace).reverse

/-- Remove leading and trailing whitespace (`str.strip()`). -/
def pstrip (s : List Char) : List Char := rstrip (lstrip s)

/-- Colour substitutions of `cleaner_tool`, in source order
(`blk→black, wht→white, red→red, blu→blue, grn→green`). -/
def colorSubs (s : List Char) : List Char :=
  subWW "grn".data "green".data
    (subWW "blu".data "blue".data
      (subWW "red".data "red".data
        (subWW "wht".data "white".data
          (subWW "blk".data "black".data s))))

/-- Material substitutions of `cleaner_tool`, in source order. -/
def materialSubs (s : List Char) : List Char :=
  subWW "leather".data "Leather".data
    (subWW "silk".data "Silk".data
      (subWW "wool".data "Wool".data
        (subWW "polyester".data "Polyester".data
          (subWW "cotton".data "Cotton".data s))))

/-- Dimension-unit substitutions of `cleaner_tool`, in source order. -/
def dimSubs (s : List Char) : List Char :=
  subWW "millimeters".data "mm".data
    (subWW "centimeters".data "cm".data
      (subWW "inches".data "in".data s))

/-- Run-level action of the colour substitution chain. -/
def gColor (r : List Char) : List Char :=
  gsub "grn".data "green".data
    (gsub "blu".data "blue".data
      (gsub "red".data "red".data
        (gsub "wht".data "white".data
          (gsub "blk".data "black".data r))))

/-- Run-level action of the material substitution chain. -/
def gMaterial (r : List Char) : List Char :=
  gsub "leather".data "Leather".data
    (gsub "silk".data "Silk".data
      (gsub "wool".data "Wool".data
        (gsub "polyester".data "Polyester".data
          (gsub "cotton".data "Cotton".data r))))

/-- Run-level action of the dimension substitution chain. -/
def gDim (r : List Char) : List Char :=
  gsub "millimeters".data "mm".data
    (gsub "centimeters".data "cm".data
      (gsub "inches".data "in".data r))

/-- The `cleaner_tool` normalizer (`cleaner_tool(field_name, field_value)`):
empty input is returned unchanged; otherwise strip, apply the
field-specific whole-word substitutions (field name compared
case-insensitively), collapse whitespace runs and strip again. -/
def cleanField (fieldName v : List Char) : List Char :=
  if v = [] then v
  else
    let c0 := pstrip v
    let c1 :=
      if lowerL fieldName = "color".data then colorSubs c0
      else if lowerL fieldName = "material".data then materialSubs c0
      else if lowerL fieldName = "dimensions".data then dimSubs c0
      else c0
    pstrip (collapse c1)

/-- JSON-ish value as produced by `json.loads` / carried in result dicts
(restricted to the shapes the claims exercise). -/
inductive JVal where
  | vstr (s : String)
  | vnum (q : ℚ)
  | vnull
deriving DecidableEq

/-- Python truthiness of a `JVal` (`bool(value)`). -/
def truthyV : JVal → Bool
  | .vstr s => !(s == "")
  | .vnum q => !(q == 0)
  | .vnull => false

/-- A Python dict with string keys, as an association list in insertion
order (keys unique in every dict the code builds). -/
abbrev Dict : Type := List (String × JVal)

/-- Dict lookup (`data.get(k)`): the value at the first (unique in
Python) occurrence of the key. -/
def getD : Dict → String → Option JVal
  | [], _ => none
  | (k2, v) :: t, k => if k2 = k then some v else getD t k

/-- Key-presence test (`k in data`). -/
def hasKey : Dict → String → Bool
  | [], _ => false
  | (k2, _) :: t, k => (k2 == k) || hasKey t k

/-- Truthiness of `d.get(k)` with default None/0.0-style falsiness. -/
def truthyOpt : Option JVal → Bool
  | none => false
  | some v => truthyV v

/-- Dict assignment `d[k] = v`: replace in place if the key exists,
otherwise append (Python dict insertion-order semantics). -/
def setD (d : Dict) (k : String) (v : JVal) : Dict :=
  if hasKey d k then
    d.map (fun p => if p.1 == k then (k, v) else p)
  else
    d ++ [(k, v)]

/-- ASCII single-quote character, used in the validator warning text. -/
def sq : String := String.mk [Char.ofNat 39]

/-- The five optional fields that feed the confidence formula. -/
def optionalFieldNames : List String :=
  ["brand", "category", "color", "material", "dimensions"]

/-- Count of optional fields with a truthy value
(`sum(1 for field in optional_fields if result.get(field))`). -/
def filledCount (d : Dict) : Nat :=
  (optionalFieldNames.filter (fun f => truthyOpt (getD d f))).length

/-- Round to two decimal places (`round(x, 2)` on the exact rational the
formula produces; every value that arises is an exact multiple of 0.2,
where Python float rounding agrees with exact rounding). -/
def round2 (q : ℚ) : ℚ := ((round (q * 100) : ℤ) : ℚ) / 100

/-- The orchestrator's confidence fallback (`extract`, lines 481-486):
if `confidence_score` is absent or exactly 0.0, recompute it as
`round(filled_fields * 0.20, 2)` over the five optional fields. -/
def applyFallback (d : Dict) : Dict :=
  if getD d "confidence_score" = none ∨ getD d "confidence_score" = some (.vnum 0) then
    setD d "confidence_score" (.vnum (round2 ((filledCount d : ℚ) * (20 / 100))))
  else d

/-- Fixed uncertainty phrases scanned by `schema_validator_tool`. -/
def hallucinationPhrases : List String :=
  ["not visible", "cannot determine", "unclear", "not specified", "unknown", "n/a"]

/-- Warning text `f"Field '{field}' may contain uncertain data: {value}"`. -/
def warnMsg (f v : String) : String :=
  "Field " ++ sq ++ f ++ sq ++ " may contain uncertain data: " ++ v

/-- Warnings contributed by one string-valued entry: one per matching
phrase (`phrase in value_lower`). -/
def phraseHits (f v : String) : List String :=
  (hallucinationPhrases.filter (fun p => hasSub p.data (lowerS v).data)).map
    (fun _ => warnMsg f v)

/-- The hallucination scan of `schema_validator_tool`: every
string-valued field, in dict order. -/
def warningsOf (data : Dict) : List String :=
  data.flatMap (fun fv =>
    match fv.2 with
    | .vstr s => phraseHits fv.1 s
    | _ => [])

/-- The error checks of `schema_validator_tool`: missing/falsy `title`,
then the raw (untrimmed) length check `len(data["title"]) < 3`. -/
def errorsOf (data : Dict) : List String :=
  (if truthyOpt (getD data "title") then [] else ["Missing required field: title"])
    ++ (match getD data "title" with
        | some (.vstr s) => if s.length < 3 then ["Title too short (minimum 3 characters)"] else []
        | _ => [])

/-- Validation result: ordered error and warning lists. -/
structure VResult where
  errors : List String
  warnings : List String
deriving DecidableEq

/-- Validation of a parsed candidate record. -/
def validateCore (data : Dict) : VResult :=
  ⟨errorsOf data, warningsOf data⟩

/-- Validation status (`fail` / `pass_with_warnings` / `pass`). -/
inductive VStatus where
  | fail
  | passWarn
  | pass
deriving DecidableEq

/-- Status precedence exactly as compiled by the source
(`if errors: ... elif warnings: ... else: ...`). -/
def statusOf (r : VResult) : VStatus :=
  if r.errors ≠ [] then .fail
  else if r.warnings ≠ [] then .passWarn
  else .pass

/-- Join strings with a separator (`sep.join(items)`). -/
def joinWith (sep : String) : List String → String
  | [] => ""
  | [x] => x
  | x :: xs => x ++ sep ++ joinWith sep xs

/-- Rendered tool reply of `schema_validator_tool` for a parsed record. -/
def renderValidation (r : VResult) : String :=
  if r.errors ≠ [] then
    "Validation FAILED:\n" ++ joinWith "\n" (r.errors.map (fun e => "- " ++ e))
  else if r.warnings ≠ [] then
    "Validation PASSED with warnings:\n" ++ joinWith "\n" (r.warnings.map (fun w => "- " ++ w))
  else
    "Validation PASSED: All fields valid"

/-- Whether `len(data["title"])` raises (`title` present but not a
string), sending the tool into its generic `except Exception` branch. -/
def titleLenRaises (data : Dict) : Bool :=
  match getD data "title" with
  | some (.vstr _) => false
  | some _ => true
  | none => false

/-- Full `schema_validator_tool` boundary: `none` models input on which
`json.loads` raises `JSONDecodeError` (with message `parseErrMsg`);
`exnMsg` is the text of an exception raised inside validation. -/
def schemaValidatorTool (inp : Option Dict) (parseErrMsg exnMsg : String) : String :=
  match inp with
  | none => "Invalid JSON: " ++ parseErrMsg
  | some data =>
    if titleLenRaises data then "Validation error: " ++ exnMsg
    else renderValidation (validateCore data)

/-- Truncation of visible page text (`text[:5000] if len(text) > 5000 else text`). -/
def truncate5000 (t : List Char) : List Char :=
  if 5000 < t.length then t.take 5000 else t

/-- Header of the page-fetcher block, up to and including the
`Page Content:` banner line. -/
def scraperHeader (url title meta : List Char) : List Char :=
  "URL: ".data ++ url ++ "\nTitle: ".data ++ title
    ++ "\nMeta Description: ".data ++ meta ++ "\n\nPage Content:\n".data

/-- The block built and returned by `html_scraper_tool` on success: the
f-string (leading newline, URL/title/meta lines, banner, truncated text,
trailing newline) followed by `.strip()`. -/
def scraperResult (url title meta text : List Char) : List Char :=
  pstrip ('\n' :: (scraperHeader url title meta ++ truncate5000 text ++ ['\n']))

/-- Outcome of the external fetch+parse performed by `html_scraper_tool`:
either the parsed page pieces, or an exception (network error, non-2xx
status via `raise_for_status`, parse error) with message `msg`. -/
inductive FetchOutcome where
  | success (title meta text : List Char)
  | failure (msg : List Char)

/-- `html_scraper_tool`: absorb any exception into an error string. -/
def htmlScraperTool (url : List Char) (fetch : FetchOutcome) : List Char :=
  match fetch with
  | .success title meta text => scraperResult url title meta text
  | .failure msg => "Error scraping URL: ".data ++ msg

/-- Input modality of one extraction request. -/
inductive InputKind where
  | image
  | url
  | text
deriving DecidableEq

/-- Outcome of the vision model call inside `vision_extractor_tool`. -/
inductive VisionOutcome where
  | reply (content : List Char)
  | failure (msg : List Char)

/-- `vision_extractor_tool`: requires image input, absorbs any exception
from the vision-model call into an error string. -/
def visionExtractorTool (inputType : InputKind) (outcome : VisionOutcome) : List Char :=
  if inputType ≠ .image then "Error: Vision tool requires image input".data
  else
    match outcome with
    | .reply c => c
    | .failure msg => "Error in vision extraction: ".data ++ msg

/-- One agent message as `extract` sees it: `content` is `some` when the
object has a `content` attribute. -/
structure Msg where
  content : Option String

/-- Value found under the `output` key of an agent response: a dict
(or dataclass, already viewed as its field dict) or anything else. -/
inductive OutVal where
  | dict (d : Dict)
  | other

/-- The raw agent response as `extract` receives it: optional
`structured_response` key (dataclasses viewed as their field dicts),
optional `output` key, and the message list. -/
structure AgentResponse where
  structured_response : Option Dict
  output : Option OutVal
  messages : List Msg

/-- Methods 1 and 2 of `extract`: the pre-structured response object,
else a dict-shaped named `output` field. -/
def method12 (resp : AgentResponse) : Option Dict :=
  match resp.structured_response with
  | some d => some d
  | none =>
    match resp.output with
    | some (.dict d) => some d
    | _ => none

/-- Truthiness of the intermediate `result` variable (None or an empty
dict are falsy). -/
def truthyRes : Option Dict → Bool
  | none => false
  | some d => !(d.isEmpty)

/-- Content of the last message, when a last message with a `content`
attribute exists. -/
def finalContent (resp : AgentResponse) : Option String :=
  (resp.messages.getLast?).bind (fun m => m.content)

/-- Method 3 of `extract`: when `result` is falsy, scan the last
message's text.  `scan` models `re.search(r'\{...\}', content)` followed
by `json.loads`: `some d` when a JSON block was found and parsed, `none`
otherwise.  If the parse leaves `result` falsy, fall back to
`{"raw_response": content}`. -/
def method3 (scan : String → Option Dict) (resp : AgentResponse) (r : Option Dict) :
    Option Dict :=
  if truthyRes r then r
  else
    match finalContent resp with
    | none => r
    | some content =>
      let r2 : Option Dict :=
        match scan content with
        | some d => some d
        | none => r
      if truthyRes r2 then r2 else some [("raw_response", .vstr content)]

/-- The post-invoke logic of `MetadataExtractionAgent.extract`
(lines 433-488): three extraction methods in priority order, the
`Failed to extract metadata` outcome when `result` is still falsy, and
the confidence fallback on success. -/
def extractResult (scan : String → Option Dict) (resp : AgentResponse) : Dict :=
  match method3 scan resp (method12 resp) with
  | none => [("error", .vstr "Failed to extract metadata")]
  | some d =>
    if d.isEmpty then [("error", .vstr "Failed to extract metadata")]
    else applyFallback d

/-- All characters of a list are word characters. -/
def AllWord (l : List Char) : Prop := ∀ c ∈ l, isWordChar c = true

instance decidableAllWord (l : List Char) : Decidable (AllWord l) :=
  inferInstanceAs (Decidable (∀ c ∈ l, isWordChar c = true))

/-- A run transformer suitable for `mapRuns` composition: it keeps
nonempty all-word runs nonempty and all-word. -/
def GOK (g : List Char → List Char) : Prop :=
  ∀ r : List Char, r ≠ [] → AllWord r → g r ≠ [] ∧ AllWord (g r)

/-- Normal form of `collapse`: every whitespace character is a single
space never followed by further whitespace. -/
def collapsedOK : List Char → Bool
  | [] => true
  | c :: t =>
    ((!isSpace c) || ((c == ' ') && (match t with | [] => true | d :: _ => !isSpace d)))
      && collapsedOK t

/-- Shape hypothesis: the list is empty or starts with a non-word
character (the shape of everything to the right of a completed run). -/
def NonWordHead (t : List Char) : Prop :=
  t = [] ∨ ∃ d t2, t = d :: t2 ∧ isWordChar d = false

/-! ### Dictionary helper lemmas -/

theorem getD_map_set (t : Dict) (k : String) (v : JVal) (h : hasKey t k = true) :
    getD (t.map (fun p => if p.1 == k then (k, v) else p)) k = some v := by
  induction t with
  | nil => simp [hasKey] at h
  | cons a t ih =>
    obtain ⟨k2, w⟩ := a
    simp only [List.map_cons]
    by_cases hk : k2 = k
    · subst hk
      rw [show (if ((k2, w) : String × JVal).1 == k2 then (k2, v) else (k2, w)) = (k2, v) by
        simp]
      simp [getD]
    · have hbeq : (((k2, w) : String × JVal).1 == k) = false := by simpa using hk
      rw [show (if ((k2, w) : String × JVal).1 == k then (k, v) else (k2, w)) = (k2, w) by
        simp [hbeq]]
      have h2 : hasKey t k = true := by
        simp [hasKey, hk] at h
        simpa using h
      simp only [getD, if_neg hk]
      simpa using ih h2

theorem getD_append_right (d e : Dict) (k : String) (h : hasKey d k = false) :
    getD (d ++ e) k = getD e k := by
  induction d with
  | nil => simp
  | cons a t ih =>
    obtain ⟨k2, w⟩ := a
    simp [hasKey] at h
    simp [getD, h.1, ih h.2]

theorem getD_setD_self (d : Dict) (k : String) (v : JVal) :
    getD (setD d k v) k = some v := by
  unfold setD
  by_cases h : hasKey d k = true
  · rw [if_pos h]
    exact getD_map_set d k v h
  · rw [if_neg h]
    rw [getD_append_right d [(k, v)] k (by simpa using h)]
    simp [getD]

/-! ### C1: confidence-score fallback -/

theorem filledCount_le_five (d : Dict) : filledCount d ≤ 5 :=
  le_trans (List.length_filter_le _ _) (by simp [optionalFieldNames])

theorem filledCount_congr (d d2 : Dict)
    (h : ∀ f ∈ optionalFieldNames, getD d2 f = getD d f) :
    filledCount d2 = filledCount d := by
  unfold filledCount
  congr 1
  apply List.filter_congr
  intro f hf
  rw [h f hf]

/-- C1.  For every result record whose `confidence_score` is absent or
exactly `0.0`, the orchestrator's fallback stores
`round(0.20 * k, 2)` where `k` counts the five optional fields
(`brand`, `category`, `color`, `material`, `dimensions`) holding a
truthy value; the score equals `k/5` exactly, lies in `[0, 1]`, and the
count (hence the score) is a function of the five optional fields only,
so `title` never contributes. -/
theorem c1_confidence_fallback (d : Dict)
    (h : getD d "confidence_score" = none ∨ getD d "confidence_score" = some (.vnum 0)) :
    getD (applyFallback d) "confidence_score"
        = some (.vnum (round2 ((filledCount d : ℚ) * (20 / 100))))
      ∧ round2 ((filledCount d : ℚ) * (20 / 100)) = (filledCount d : ℚ) / 5
      ∧ 0 ≤ round2 ((filledCount d : ℚ) * (20 / 100))
      ∧ round2 ((filledCount d : ℚ) * (20 / 100)) ≤ 1
      ∧ (∀ d2 : Dict, (∀ f ∈ optionalFieldNames, getD d2 f = getD d f) →
          filledCount d2 = filledCount d) := by
  have hk : filledCount d ≤ 5 := filledCount_le_five d
  have hval : ∀ k : ℕ, k ≤ 5 →
      round2 ((k : ℚ) * (20 / 100)) = (k : ℚ) / 5
        ∧ 0 ≤ round2 ((k : ℚ) * (20 / 100)) ∧ round2 ((k : ℚ) * (20 / 100)) ≤ 1 := by
    intro k hk5
    interval_cases k <;> norm_num [round2]
  refine ⟨?_, (hval _ hk).1, (hval _ hk).2.1, (hval _ hk).2.2, filledCount_congr d⟩
  unfold applyFallback
  rw [if_pos h]
  exact getD_setD_self d "confidence_score" _

/-- Witness for C1 at a concrete record with two filled optional fields
and no `confidence_score` key. -/
theorem c1_confidence_fallback_witness :
    (getD [("title", JVal.vstr "x"), ("brand", JVal.vstr "Nike"),
        ("color", JVal.vstr "red")] "confidence_score" = none
      ∨ getD [("title", JVal.vstr "x"), ("brand", JVal.vstr "Nike"),
        ("color", JVal.vstr "red")] "confidence_score" = some (.vnum 0))
    ∧ (getD (applyFallback [("title", JVal.vstr "x"), ("brand", JVal.vstr "Nike"),
        ("color", JVal.vstr "red")]) "confidence_score"
        = some (.vnum (round2 ((filledCount [("title", JVal.vstr "x"),
            ("brand", JVal.vstr "Nike"), ("color", JVal.vstr "red")] : ℚ) * (20 / 100))))
      ∧ round2 ((filledCount [("title", JVal.vstr "x"), ("brand", JVal.vstr "Nike"),
            ("color", JVal.vstr "red")] : ℚ) * (20 / 100))
          = (filledCount [("title", JVal.vstr "x"), ("brand", JVal.vstr "Nike"),
            ("color", JVal.vstr "red")] : ℚ) / 5
      ∧ 0 ≤ round2 ((filledCount [("title", JVal.vstr "x"), ("brand", JVal.vstr "Nike"),
            ("color", JVal.vstr "red")] : ℚ) * (20 / 100))
      ∧ round2 ((filledCount [("title", JVal.vstr "x"), ("brand", JVal.vstr "Nike"),
            ("color", JVal.vstr "red")] : ℚ) * (20 / 100)) ≤ 1
      ∧ (∀ d2 : Dict, (∀ f ∈ optionalFieldNames,
            getD d2 f = getD [("title", JVal.vstr "x"), ("brand", JVal.vstr "Nike"),
              ("color", JVal.vstr "red")] f) →
          filledCount d2 = filledCount [("title", JVal.vstr "x"),
            ("brand", JVal.vstr "Nike"), ("color", JVal.vstr "red")])) :=
  ⟨Or.inl (by decide), c1_confidence_fallback _ (Or.inl (by decide))⟩

/-! ### C2, C3, C4: the validator -/

theorem errors_eq_of_title_eq (data1 data2 : Dict)
    (h : getD data1 "title" = getD data2 "title") :
    errorsOf data1 = errorsOf data2 := by
  unfold errorsOf
  rw [h]

theorem missing_title_error (data : Dict) (h : truthyOpt (getD data "title") = false) :
    "Missing required field: title" ∈ (validateCore data).errors
      ∧ statusOf (validateCore data) = .fail := by
  have he : (validateCore data).errors
      = "Missing required field: title"
        :: (match getD data "title" with
            | some (.vstr s) =>
              if s.length < 3 then ["Title too short (minimum 3 characters)"] else []
            | _ => []) := by
    simp [validateCore, errorsOf, h]
  constructor
  · rw [he]; exact List.mem_cons_self _ _
  · simp [statusOf, he]

theorem short_title_error (data : Dict) (s : String)
    (h : getD data "title" = some (.vstr s)) (hlen : s.length < 3) :
    "Title too short (minimum 3 characters)" ∈ (validateCore data).errors
      ∧ statusOf (validateCore data) = .fail := by
  have he : (validateCore data).errors
      = (if truthyOpt (getD data "title") then [] else ["Missing required field: title"])
        ++ ["Title too short (minimum 3 characters)"] := by
    simp [validateCore, errorsOf, h, hlen]
  constructor
  · rw [he]; exact List.mem_append_right _ (List.mem_cons_self _ _)
  · have : (validateCore data).errors ≠ [] := by
      rw [he]; simp
    simp [statusOf, this]

/-- C2 (amended).  A missing or falsy `title` yields the error naming
`title` and a `fail` status; a `title` whose raw, untrimmed length is
below 3 yields the too-short error (the source checks
`len(data["title"]) < 3` without trimming). -/
theorem c2_title_checks :
    (∀ data : Dict, truthyOpt (getD data "title") = false →
        "Missing required field: title" ∈ (validateCore data).errors
          ∧ statusOf (validateCore data) = .fail)
      ∧ (∀ (data : Dict) (s : String), getD data "title" = some (.vstr s) → s.length < 3 →
          "Title too short (minimum 3 characters)" ∈ (validateCore data).errors
            ∧ statusOf (validateCore data) = .fail) :=
  ⟨missing_title_error, short_title_error⟩

/-- Witness for C2 at the empty record (missing title) and at a record
with a two-character title. -/
theorem c2_title_checks_witness :
    (truthyOpt (getD ([] : Dict) "title") = false
      ∧ "Missing required field: title" ∈ (validateCore ([] : Dict)).errors
      ∧ statusOf (validateCore ([] : Dict)) = .fail)
    ∧ (getD [("title", JVal.vstr "ab")] "title" = some (.vstr "ab")
      ∧ "ab".length < 3
      ∧ "Title too short (minimum 3 characters)"
          ∈ (validateCore [("title", JVal.vstr "ab")]).errors
      ∧ statusOf (validateCore [("title", JVal.vstr "ab")]) = .fail) :=
  ⟨⟨by decide, (c2_title_checks.1 [] (by decide)).1, (c2_title_checks.1 [] (by decide)).2⟩,
   ⟨by decide, by decide,
    (c2_title_checks.2 [("title", JVal.vstr "ab")] "ab" (by decide) (by decide)).1,
    (c2_title_checks.2 [("title", JVal.vstr "ab")] "ab" (by decide) (by decide)).2⟩⟩

/-- Counterexample to C2 as stated: the title `" a "` has fewer than 3
characters after trimming, yet the validator reports no error at all
(its length check uses the raw string, of length 3). -/
theorem c2_counterexample :
    (pstrip " a ".data).length < 3
      ∧ (validateCore [("title", JVal.vstr " a ")]).errors = []
      ∧ statusOf (validateCore [("title", JVal.vstr " a ")]) = .pass := by
  refine ⟨by decide, by decide, by decide⟩

/-- C3.  Any string-valued field containing one of the fixed uncertainty
phrases (case-insensitively, as a substring) produces a warning naming
the field and its value; the error list is a function of the `title`
entry alone, so a phrase match never contributes an error; and the
status is `fail` exactly when an error exists, `pass_with_warnings`
exactly when there are no errors but at least one warning, and `pass`
otherwise. -/
theorem c3_hallucination_scan :
    (∀ (data : Dict) (f v : String), (f, JVal.vstr v) ∈ data →
        (∃ p ∈ hallucinationPhrases, hasSub p.data (lowerS v).data = true) →
        warnMsg f v ∈ (validateCore data).warnings)
      ∧ (∀ data1 data2 : Dict, getD data1 "title" = getD data2 "title" →
          (validateCore data1).errors = (validateCore data2).errors)
      ∧ (∀ data : Dict,
          (statusOf (validateCore data) = .fail ↔ (validateCore data).errors ≠ [])
            ∧ (statusOf (validateCore data) = .passWarn ↔
                ((validateCore data).errors = [] ∧ (validateCore data).warnings ≠ []))
            ∧ (statusOf (validateCore data) = .pass ↔
                ((validateCore data).errors = [] ∧ (validateCore data).warnings = []))) := by
  refine ⟨?_, ?_, ?_⟩
  · intro data f v hmem ⟨p, hp, hsub⟩
    have : warnMsg f v ∈ phraseHits f v := by
      unfold phraseHits
      apply List.mem_map_of_mem
      exact List.mem_filter.mpr ⟨hp, by simpa using hsub⟩
    simp only [validateCore, warningsOf]
    exact List.mem_flatMap.mpr ⟨(f, JVal.vstr v), hmem, this⟩
  · intro data1 data2 h
    exact errors_eq_of_title_eq data1 data2 h
  · intro data
    by_cases he : (validateCore data).errors = [] <;>
      by_cases hw : (validateCore data).warnings = [] <;>
        simp [statusOf, he, hw]

/-- Witness for C3 at a record whose `color` field contains the phrase
`not visible`. -/
theorem c3_hallucination_scan_witness :
    (("color", JVal.vstr "Not visible in image")
        ∈ [("title", JVal.vstr "Red Shoe"), ("color", JVal.vstr "Not visible in image")]
      ∧ (∃ p ∈ hallucinationPhrases,
          hasSub p.data (lowerS "Not visible in image").data = true)
      ∧ warnMsg "color" "Not visible in image"
          ∈ (validateCore [("title", JVal.vstr "Red Shoe"),
              ("color", JVal.vstr "Not visible in image")]).warnings) :=
  ⟨by decide, ⟨"not visible", by decide, by decide⟩,
   c3_hallucination_scan.1 _ "color" "Not visible in image" (by decide)
     ⟨"not visible", by decide, by decide⟩⟩

/-- C4 (amended).  A record whose only entry is a string `title` of at
least 3 characters containing none of the uncertainty phrases validates
as `pass` with no errors and no warnings (the scan does inspect `title`
itself, so the phrase-freedom hypothesis is necessary). -/
theorem c4_minimal_pass (s : String) (h3 : 3 ≤ s.length)
    (hp : ∀ p ∈ hallucinationPhrases, hasSub p.data (lowerS s).data = false) :
    validateCore [("title", JVal.vstr s)] = ⟨[], []⟩
      ∧ statusOf (validateCore [("title", JVal.vstr s)]) = .pass := by
  have hne : (s == "") = false := by
    have : s ≠ "" := by
      intro hs
      rw [hs] at h3
      simp at h3
    simpa using this
  have herr : errorsOf [("title", JVal.vstr s)] = [] := by
    unfold errorsOf
    have hget : getD [("title", JVal.vstr s)] "title" = some (.vstr s) := by
      simp [getD]
    rw [hget]
    simp [truthyOpt, truthyV, hne, Nat.not_lt.mpr h3]
  have hwarn : warningsOf [("title", JVal.vstr s)] = [] := by
    unfold warningsOf phraseHits
    simp only [List.flatMap_cons, List.flatMap_nil, List.append_nil]
    rw [List.filter_eq_nil_iff.mpr (by intro p hpmem; simp [hp p hpmem])]
    simp
  refine ⟨?_, ?_⟩
  · unfold validateCore
    rw [herr, hwarn]
  · simp [statusOf, validateCore, herr, hwarn]

/-- Witness for C4 at the title `"Red Shoe"`. -/
theorem c4_minimal_pass_witness :
    (3 ≤ "Red Shoe".length
      ∧ (∀ p ∈ hallucinationPhrases, hasSub p.data (lowerS "Red Shoe").data = false)
      ∧ validateCore [("title", JVal.vstr "Red Shoe")] = ⟨[], []⟩
      ∧ statusOf (validateCore [("title", JVal.vstr "Red Shoe")]) = .pass) :=
  ⟨by decide, by decide,
   (c4_minimal_pass "Red Shoe" (by decide) (by decide)).1,
   (c4_minimal_pass "Red Shoe" (by decide) (by decide)).2⟩

/-- Counterexample to C4 as stated: the record `{"title": "unknown"}`
has a title of length at least 3 and no other field, yet validation
produces a warning (the scan inspects `title`), so the status is
`pass_with_warnings`, not `pass`. -/
theorem c4_counterexample :
    3 ≤ "unknown".length
      ∧ statusOf (validateCore [("title", JVal.vstr "unknown")]) ≠ VStatus.pass
      ∧ (validateCore [("title", JVal.vstr "unknown")]).warnings ≠ [] := by
  refine ⟨by decide, by decide, by decide⟩

/-! ### C8: page-fetcher truncation -/

theorem dropWhile_append_ne {p : Char → Bool} {a : List Char} (b : List Char)
    (h : a.dropWhile p ≠ []) :
    (a ++ b).dropWhile p = a.dropWhile p ++ b := by
  induction a with
  | nil => simp at h
  | cons c t ih =>
    by_cases hc : p c = true
    · rw [List.cons_append, List.dropWhile_cons_of_pos hc, List.dropWhile_cons_of_pos hc]
      exact ih (by rwa [List.dropWhile_cons_of_pos hc] at h)
    · have hc2 : p c = false := by simpa using hc
      rw [List.cons_append, List.dropWhile_cons_of_neg (by simp [hc2]),
        List.dropWhile_cons_of_neg (by simp [hc2]), List.cons_append]

theorem rstrip_append_of_ne {b : List Char} (a : List Char) (h : rstrip b ≠ []) :
    rstrip (a ++ b) = a ++ rstrip b := by
  unfold rstrip at *
  have hb : b.reverse.dropWhile isSpace ≠ [] := by
    intro hx
    apply h
    rw [hx]
    simp
  rw [List.reverse_append, dropWhile_append_ne _ hb, List.reverse_append,
    List.reverse_reverse]

theorem rstrip_append_space {c : Char} (x : List Char) (h : isSpace c = true) :
    rstrip (x ++ [c]) = rstrip x := by
  unfold rstrip
  rw [List.reverse_append]
  simp [List.dropWhile_cons, h]

theorem lstrip_cons_nonspace {c : Char} (h : isSpace c = false) (s : List Char) :
    lstrip (c :: s) = c :: s := by
  simp [lstrip, List.dropWhile_cons, h]

theorem lstrip_cons_space {c : Char} (h : isSpace c = true) (s : List Char) :
    lstrip (c :: s) = lstrip s := by
  simp [lstrip, List.dropWhile_cons, h]

theorem rstrip_replicate_a (n : Nat) :
    rstrip (List.replicate n 'a') = List.replicate n 'a' := by
  unfold rstrip
  rw [List.reverse_replicate]
  cases n with
  | zero => simp
  | succ m =>
    rw [List.replicate_succ, List.dropWhile_cons_of_neg (by decide), ← List.replicate_succ,
      List.reverse_replicate]

theorem scraperResult_trunc (url title meta text : List Char) (hlen : 5000 < text.length)
    (hne : rstrip (text.take 5000) ≠ []) :
    scraperResult url title meta text
      = scraperHeader url title meta ++ rstrip (text.take 5000) := by
  unfold scraperResult pstrip
  have htr : truncate5000 text = text.take 5000 := by
    unfold truncate5000
    rw [if_pos hlen]
  rw [htr, lstrip_cons_space (by decide)]
  have hX : scraperHeader url title meta ++ text.take 5000 ++ ['\n']
      = 'U' :: ("RL: ".data ++ url ++ "\nTitle: ".data ++ title
          ++ "\nMeta Description: ".data ++ meta ++ "\n\nPage Content:\n".data
          ++ text.take 5000 ++ ['\n']) := by
    unfold scraperHeader
    rw [show ("URL: ".data : List Char) = 'U' :: "RL: ".data from rfl]
    simp only [List.cons_append]
  have hl : lstrip (scraperHeader url title meta ++ text.take 5000 ++ ['\n'])
      = scraperHeader url title meta ++ text.take 5000 ++ ['\n'] := by
    rw [hX]
    exact lstrip_cons_nonspace (by decide) _
  rw [hl, rstrip_append_space _ (by decide), rstrip_append_of_ne _ hne]

/-- C8 (amended).  For a page whose visible text exceeds 5000
characters, the returned block is the header lines followed by the
first 5000 characters of the visible text with trailing whitespace
removed (the block is built and then passed through `.strip()`); the
hypothesis that this stripped truncation is nonempty keeps the final
strip from also consuming the banner's newline. -/
theorem c8_truncation (url title meta text : List Char) (hlen : 5000 < text.length)
    (hne : rstrip (text.take 5000) ≠ []) :
    scraperResult url title meta text
      = scraperHeader url title meta ++ rstrip (text.take 5000) :=
  scraperResult_trunc url title meta text hlen hne

/-- Witness for C8 at a 5001-character visible text of `'a'`s. -/
theorem c8_truncation_witness :
    5000 < (List.replicate 5001 'a').length
      ∧ rstrip ((List.replicate 5001 'a').take 5000) ≠ []
      ∧ scraperResult "u".data "t".data "m".data (List.replicate 5001 'a')
          = scraperHeader "u".data "t".data "m".data
              ++ rstrip ((List.replicate 5001 'a').take 5000) := by
  have hlen : 5000 < (List.replicate 5001 'a').length := by
    rw [List.length_replicate]
    omega
  have htk : (List.replicate 5001 'a').take 5000 = List.replicate 5000 'a' := by
    rw [List.take_replicate]
    norm_num
  have hne : rstrip ((List.replicate 5001 'a').take 5000) ≠ [] := by
    rw [htk, rstrip_replicate_a]
    intro hx
    have hx2 := congrArg List.length hx
    rw [List.length_replicate] at hx2
    simp only [List.length_nil] at hx2
    omega
  exact ⟨hlen, hne, c8_truncation "u".data "t".data "m".data _ hlen hne⟩

/-- Counterexample to C8 as stated: when the 5000-character truncation
ends in a space, the final `.strip()` removes it, so the content portion
of the block is not exactly the first 5000 characters of the visible
text. -/
theorem c8_counterexample :
    5000 < (List.replicate 4999 'a' ++ [' ', 'b']).length
      ∧ scraperResult "u".data "t".data "m".data (List.replicate 4999 'a' ++ [' ', 'b'])
          ≠ scraperHeader "u".data "t".data "m".data
              ++ (List.replicate 4999 'a' ++ [' ', 'b']).take 5000 := by
  have hlen : 5000 < (List.replicate 4999 'a' ++ [' ', 'b']).length := by
    simp only [List.length_append, List.length_replicate, List.length_cons, List.length_nil]
    omega
  have htk : (List.replicate 4999 'a' ++ [' ', 'b']).take 5000
      = List.replicate 4999 'a' ++ [' '] := by
    rw [List.take_append_eq_append_take,
      List.take_of_length_le (by rw [List.length_replicate]; omega), List.length_replicate,
      show List.take (5000 - 4999) [' ', 'b'] = [' '] by decide]
  have hr : rstrip ((List.replicate 4999 'a' ++ [' ', 'b']).take 5000)
      = List.replicate 4999 'a' := by
    rw [htk, rstrip_append_space _ (by decide), rstrip_replicate_a]
  have hrne : rstrip ((List.replicate 4999 'a' ++ [' ', 'b']).take 5000) ≠ [] := by
    rw [hr]
    intro hx
    have hx2 := congrArg List.length hx
    rw [List.length_replicate] at hx2
    simp only [List.length_nil] at hx2
    omega
  refine ⟨hlen, ?_⟩
  rw [scraperResult_trunc _ _ _ _ hlen hrne, hr, htk]
  intro h
  have h2 := List.append_cancel_left h
  have h3 := congrArg List.length h2
  simp only [List.length_append, List.length_replicate, List.length_cons, List.length_nil] at h3
  omega

/-! ### C9: tool error boundaries -/

theorem head_append_lit (c : Char) (l : List Char) (t s : String) (hs : s.data = c :: l) :
    (s ++ t).data.head? = some c := by
  rw [String.data_append, hs]
  rfl

theorem invalid_ne_validation (p : String) (r : VResult) :
    "Invalid JSON: " ++ p ≠ renderValidation r := by
  unfold renderValidation
  have hL : ("Invalid JSON: " ++ p).data.head? = some 'I' :=
    head_append_lit 'I' _ p _ rfl
  split_ifs with h1 h2
  · intro h
    rw [h, head_append_lit 'V' _ _ _ rfl] at hL
    exact absurd hL (by decide)
  · intro h
    rw [h, head_append_lit 'V' _ _ _ rfl] at hL
    exact absurd hL (by decide)
  · intro h
    rw [h] at hL
    exact absurd hL (by decide)

/-- C9.  Tool-level failures are absorbed and encoded as data:
`html_scraper_tool` turns any exception (network, non-2xx status, parse)
into the descriptive string `Error scraping URL: ...`;
`vision_extractor_tool` turns a capability failure into
`Error in vision extraction: ...` and rejects non-image input with a
usage-error string; and `schema_validator_tool` answers malformed
(non-JSON) input with the `Invalid JSON: ...` string, which is distinct
from every reply it gives on parsed input (in particular from a content
`fail`). -/
theorem c9_error_boundaries :
    (∀ url msg : List Char,
        htmlScraperTool url (.failure msg) = "Error scraping URL: ".data ++ msg)
      ∧ (∀ msg : List Char,
          visionExtractorTool .image (.failure msg)
            = "Error in vision extraction: ".data ++ msg)
      ∧ (∀ (k : InputKind) (o : VisionOutcome), k ≠ .image →
          visionExtractorTool k o = "Error: Vision tool requires image input".data)
      ∧ (∀ (perr exn : String) (data : Dict),
          schemaValidatorTool none perr exn ≠ schemaValidatorTool (some data) perr exn) := by
  refine ⟨fun url msg => rfl, fun msg => rfl, ?_, ?_⟩
  · intro k o hk
    unfold visionExtractorTool
    rw [if_pos hk]
  · intro perr exn data
    unfold schemaValidatorTool
    dsimp only
    by_cases hexn : titleLenRaises data = true
    · rw [if_pos hexn]
      intro h
      have hL : ("Invalid JSON: " ++ perr).data.head? = some 'I' :=
        head_append_lit 'I' _ perr _ rfl
      rw [h, head_append_lit 'V' _ _ _ rfl] at hL
      exact absurd hL (by decide)
    · rw [if_neg hexn]
      exact invalid_ne_validation perr (validateCore data)

/-- Witness for C9: a concrete scraper failure, a concrete non-image
vision call, and concrete validator inputs. -/
theorem c9_error_boundaries_witness :
    htmlScraperTool "u".data (.failure "boom".data)
        = "Error scraping URL: ".data ++ "boom".data
      ∧ (InputKind.url ≠ .image
        ∧ visionExtractorTool .url (.reply "x".data)
            = "Error: Vision tool requires image input".data)
      ∧ schemaValidatorTool none "oops" ""
          ≠ schemaValidatorTool (some [("title", JVal.vstr "T")]) "oops" "" :=
  ⟨c9_error_boundaries.1 "u".data "boom".data,
   ⟨by decide, c9_error_boundaries.2.2.1 .url (.reply "x".data) (by decide)⟩,
   c9_error_boundaries.2.2.2 "oops" "" [("title", JVal.vstr "T")]⟩

/-! ### C5 and C10: extraction shapes and the raw-response fallback -/

theorem truthyRes_false_iff (r : Option Dict) :
    truthyRes r = false ↔ r = none ∨ r = some [] := by
  cases r with
  | none => simp [truthyRes]
  | some d => cases d <;> simp [truthyRes]

theorem truthyRes_some_of_ne {d : Dict} (hd : d ≠ []) : truthyRes (some d) = true := by
  cases d with
  | nil => exact absurd rfl hd
  | cons a t => simp [truthyRes]

theorem extract_of_method3 (scan : String → Option Dict) (resp : AgentResponse) (d : Dict)
    (h : method3 scan resp (method12 resp) = some d) (hd : d ≠ []) :
    extractResult scan resp = applyFallback d := by
  unfold extractResult
  rw [h]
  have hie : d.isEmpty = false := by
    cases d with
    | nil => exact absurd rfl hd
    | cons a t => rfl
  simp [hie]

theorem method3_dict (scan : String → Option Dict) (resp : AgentResponse) (c : String)
    (d : Dict) (hm : truthyRes (method12 resp) = false) (hc : finalContent resp = some c)
    (hs : scan c = some d) (hd : d ≠ []) :
    method3 scan resp (method12 resp) = some d := by
  unfold method3
  rw [hm, hc]
  simp only [Bool.false_eq_true, if_false, hs, truthyRes_some_of_ne hd, if_true]

theorem method3_raw (scan : String → Option Dict) (resp : AgentResponse) (c : String)
    (hm : truthyRes (method12 resp) = false) (hc : finalContent resp = some c)
    (hs : scan c = none) :
    method3 scan resp (method12 resp) = some [("raw_response", JVal.vstr c)] := by
  unfold method3
  rw [hm, hc]
  simp only [Bool.false_eq_true, if_false, hs, hm]

theorem applyFallback_raw (c : String) :
    applyFallback [("raw_response", JVal.vstr c)]
      = [("raw_response", JVal.vstr c), ("confidence_score", JVal.vnum 0)] := by
  unfold applyFallback
  rw [if_pos (show getD [("raw_response", JVal.vstr c)] "confidence_score" = none
      ∨ getD [("raw_response", JVal.vstr c)] "confidence_score" = some (JVal.vnum 0) from
    Or.inl rfl)]
  have hfc : filledCount [("raw_response", JVal.vstr c)] = 0 := rfl
  unfold setD
  rw [if_neg (show ¬hasKey [("raw_response", JVal.vstr c)] "confidence_score" = true by
    simp [hasKey])]
  rw [hfc]
  norm_num [round2]

theorem extract_raw_fallback (scan : String → Option Dict) (resp : AgentResponse) (c : String)
    (hm : truthyRes (method12 resp) = false) (hc : finalContent resp = some c)
    (hs : scan c = none) :
    extractResult scan resp
      = [("raw_response", JVal.vstr c), ("confidence_score", JVal.vnum 0)] := by
  rw [extract_of_method3 scan resp _ (method3_raw scan resp c hm hc hs) (by simp)]
  exact applyFallback_raw c

theorem extract_err (scan : String → Option Dict) (resp : AgentResponse)
    (hm : truthyRes (method12 resp) = false) (hc : finalContent resp = none) :
    extractResult scan resp = [("error", JVal.vstr "Failed to extract metadata")] := by
  have h3 : method3 scan resp (method12 resp) = method12 resp := by
    unfold method3
    rw [hm, hc]
    simp only [Bool.false_eq_true, if_false]
  unfold extractResult
  rw [h3]
  rcases (truthyRes_false_iff _).mp hm with h | h
  · rw [h]
  · rw [h]
    rfl

theorem getD_applyFallback_cs (d : Dict) :
    getD (applyFallback d) "confidence_score" ≠ none := by
  unfold applyFallback
  split_ifs with h
  · rw [getD_setD_self]
    simp
  · exact (not_or.mp h).1

theorem applyFallback_ne_err (d : Dict) :
    applyFallback d ≠ [("error", JVal.vstr "Failed to extract metadata")] := by
  intro h
  have hcs := getD_applyFallback_cs d
  rw [h] at hcs
  exact hcs rfl

/-- C5 (amended).  `extract` tries the three result shapes in priority
order (pre-structured response, dict-shaped named `output`, JSON block
scanned from the final message text), applying the confidence fallback
to whichever record wins; when no shape yields a truthy record but the
final message has text, it returns `{"raw_response": <text>,
"confidence_score": 0.0}` — carrying the raw text and fabricating no
field — rather than the distinct error outcome; the distinct
`{"error": "Failed to extract metadata"}` outcome is produced exactly
when no final message content is available to fall back on. -/
theorem c5_extraction_shapes :
    (∀ (scan : String → Option Dict) (resp : AgentResponse) (d : Dict),
        resp.structured_response = some d → d ≠ [] →
        extractResult scan resp = applyFallback d)
      ∧ (∀ (scan : String → Option Dict) (resp : AgentResponse) (d : Dict),
          resp.structured_response = none → resp.output = some (.dict d) → d ≠ [] →
          extractResult scan resp = applyFallback d)
      ∧ (∀ (scan : String → Option Dict) (resp : AgentResponse) (c : String) (d : Dict),
          truthyRes (method12 resp) = false → finalContent resp = some c →
          scan c = some d → d ≠ [] →
          extractResult scan resp = applyFallback d)
      ∧ (∀ (scan : String → Option Dict) (resp : AgentResponse) (c : String),
          truthyRes (method12 resp) = false → finalContent resp = some c → scan c = none →
          extractResult scan resp
            = [("raw_response", JVal.vstr c), ("confidence_score", JVal.vnum 0)])
      ∧ (∀ (scan : String → Option Dict) (resp : AgentResponse),
          truthyRes (method12 resp) = false → finalContent resp = none →
          extractResult scan resp = [("error", JVal.vstr "Failed to extract metadata")]) := by
  refine ⟨?_, ?_, ?_, ?_, ?_⟩
  · intro scan resp d h1 hd
    have hm : method12 resp = some d := by
      unfold method12
      rw [h1]
    exact extract_of_method3 scan resp d
      (by unfold method3; rw [hm, truthyRes_some_of_ne hd]; simp) hd
  · intro scan resp d h1 h2 hd
    have hm : method12 resp = some d := by
      unfold method12
      rw [h1, h2]
    exact extract_of_method3 scan resp d
      (by unfold method3; rw [hm, truthyRes_some_of_ne hd]; simp) hd
  · intro scan resp c d hm hc hs hd
    exact extract_of_method3 scan resp d (method3_dict scan resp c d hm hc hs hd) hd
  · intro scan resp c hm hc hs
    exact extract_raw_fallback scan resp c hm hc hs
  · intro scan resp hm hc
    exact extract_err scan resp hm hc

/-- Witness for C5: a pre-structured record wins method 1; a response
with only unparseable message text yields the raw-response record; a
response with no message content yields the error outcome. -/
theorem c5_extraction_shapes_witness :
    ((⟨some [("title", JVal.vstr "T")], none, []⟩ : AgentResponse).structured_response
          = some [("title", JVal.vstr "T")]
      ∧ extractResult (fun _ => none) ⟨some [("title", JVal.vstr "T")], none, []⟩
          = applyFallback [("title", JVal.vstr "T")])
    ∧ (truthyRes (method12 ⟨none, none, [⟨some "plain text"⟩]⟩) = false
      ∧ finalContent ⟨none, none, [⟨some "plain text"⟩]⟩ = some "plain text"
      ∧ extractResult (fun _ => none) ⟨none, none, [⟨some "plain text"⟩]⟩
          = [("raw_response", JVal.vstr "plain text"), ("confidence_score", JVal.vnum 0)])
    ∧ (finalContent ⟨none, none, [⟨none⟩]⟩ = none
      ∧ extractResult (fun _ => none) ⟨none, none, [⟨none⟩]⟩
          = [("error", JVal.vstr "Failed to extract metadata")]) :=
  ⟨⟨rfl, c5_extraction_shapes.1 (fun _ => none) ⟨some [("title", JVal.vstr "T")], none, []⟩
      [("title", JVal.vstr "T")] rfl (by simp)⟩,
   ⟨rfl, rfl, c5_extraction_shapes.2.2.2.1 (fun _ => none)
      ⟨none, none, [⟨some "plain text"⟩]⟩ "plain text" rfl rfl rfl⟩,
   ⟨rfl, c5_extraction_shapes.2.2.2.2 (fun _ => none) ⟨none, none, [⟨none⟩]⟩ rfl rfl⟩⟩

/-- Counterexample to C5 as stated: on a response with no structured
shape and message text containing no parseable JSON, `extract` does not
return the distinct extraction-failed outcome; it returns a
success-shaped record (with neither a `title` nor an `error` key). -/
theorem c5_counterexample :
    getD (extractResult (fun _ => none) ⟨none, none, [⟨some "no json here"⟩]⟩) "title" = none
      ∧ getD (extractResult (fun _ => none) ⟨none, none, [⟨some "no json here"⟩]⟩) "error"
          = none
      ∧ extractResult (fun _ => none) ⟨none, none, [⟨some "no json here"⟩]⟩
          ≠ [("error", JVal.vstr "Failed to extract metadata")] := by
  refine ⟨by decide, by decide, by decide⟩

/-- C10.  For an agent response carrying neither a pre-structured
response nor a named output, whose final message text contains no
parseable JSON, `extract` returns the success-shaped dict
`{"raw_response": <text>, "confidence_score": 0.0}` — with no `title`
and no `error` key — and the `{"error": "Failed to extract metadata"}`
outcome occurs exactly when the response has no final message content to
fall back on. -/
theorem c10_raw_response_dict :
    (∀ (scan : String → Option Dict) (resp : AgentResponse) (c : String),
        resp.structured_response = none → resp.output = none →
        finalContent resp = some c → scan c = none →
        extractResult scan resp
            = [("raw_response", JVal.vstr c), ("confidence_score", JVal.vnum 0)]
          ∧ getD (extractResult scan resp) "title" = none
          ∧ getD (extractResult scan resp) "error" = none)
      ∧ (∀ (scan : String → Option Dict) (resp : AgentResponse),
          resp.structured_response = none → resp.output = none →
          (extractResult scan resp = [("error", JVal.vstr "Failed to extract metadata")]
            ↔ finalContent resp = none)) := by
  have hm12 : ∀ resp : AgentResponse, resp.structured_response = none →
      resp.output = none → truthyRes (method12 resp) = false := by
    intro resp h1 h2
    unfold method12
    rw [h1, h2]
    rfl
  constructor
  · intro scan resp c h1 h2 hc hs
    have he := extract_raw_fallback scan resp c (hm12 resp h1 h2) hc hs
    refine ⟨he, ?_, ?_⟩ <;> (rw [he]; rfl)
  · intro scan resp h1 h2
    constructor
    · intro he
      cases hfc : finalContent resp with
      | none => rfl
      | some c =>
        exfalso
        cases hsc : scan c with
        | none =>
          rw [extract_raw_fallback scan resp c (hm12 resp h1 h2) hfc hsc] at he
          simp at he
        | some d =>
          by_cases hd : d = []
          · subst hd
            have h3 : method3 scan resp (method12 resp)
                = some [("raw_response", JVal.vstr c)] := by
              unfold method3
              rw [hm12 resp h1 h2, hfc]
              simp only [Bool.false_eq_true, if_false, hsc]
              simp [truthyRes]
            rw [extract_of_method3 scan resp _ h3 (by simp), applyFallback_raw c] at he
            simp at he
          · rw [extract_of_method3 scan resp d
                (method3_dict scan resp c d (hm12 resp h1 h2) hfc hsc hd) hd] at he
            exact applyFallback_ne_err d he
    · intro hfc
      exact extract_err scan resp (hm12 resp h1 h2) hfc

/-- Witness for C10 at a response whose only message text is
`"free text"`, and at a response with an empty message list. -/
theorem c10_raw_response_dict_witness :
    (finalContent ⟨none, none, [⟨some "free text"⟩]⟩ = some "free text"
      ∧ extractResult (fun _ => none) ⟨none, none, [⟨some "free text"⟩]⟩
          = [("raw_response", JVal.vstr "free text"), ("confidence_score", JVal.vnum 0)])
    ∧ (extractResult (fun _ => none) (⟨none, none, []⟩ : AgentResponse)
          = [("error", JVal.vstr "Failed to extract metadata")]
        ↔ finalContent (⟨none, none, []⟩ : AgentResponse) = none) :=
  ⟨⟨rfl, (c10_raw_response_dict.1 (fun _ => none) ⟨none, none, [⟨some "free text"⟩]⟩
      "free text" rfl rfl rfl rfl).1⟩,
   c10_raw_response_dict.2 (fun _ => none) ⟨none, none, []⟩ rfl rfl⟩

/-! ### C6, C7: the normalizer.  Character-level lemmas -/

theorem isWordChar_lowC (c : Char) : isWordChar (lowC c) = isWordChar c := by
  unfold lowC
  split <;> rfl

theorem lowC_eq_word {a b : Char} (h : lowC a = lowC b) :
    isWordChar a = isWordChar b := by
  rw [← isWordChar_lowC a, ← isWordChar_lowC b, h]

theorem isSpace_not_word {c : Char} (h : isSpace c = true) : isWordChar c = false := by
  simp only [isSpace, Bool.or_eq_true, beq_iff_eq] at h
  rcases h with ((((h | h) | h) | h) | h) | h <;> (subst h; rfl)

theorem isWordChar_not_space {c : Char} (h : isWordChar c = true) : isSpace c = false := by
  by_contra hx
  have hs : isSpace c = true := by
    cases hcs : isSpace c with
    | true => rfl
    | false => exact absurd hcs hx
  rw [isSpace_not_word hs] at h
  cases h

theorem startsCI_iff (pat : List Char) : ∀ s : List Char,
    (startsCI pat s = true ↔ pat.length ≤ s.length ∧ lowerL (s.take pat.length) = lowerL pat) := by
  induction pat with
  | nil =>
    intro s
    simp [startsCI, lowerL]
  | cons p ps ih =>
    intro s
    cases s with
    | nil => simp [startsCI]
    | cons c cs =>
      simp only [startsCI, Bool.and_eq_true, beq_iff_eq, List.length_cons, List.take_succ_cons,
        lowerL, List.map_cons, Nat.succ_le_succ_iff]
      constructor
      · rintro ⟨h1, h2⟩
        obtain ⟨h3, h4⟩ := (ih cs).mp h2
        exact ⟨h3, by rw [List.cons.injEq]; exact ⟨h1.symm, h4⟩⟩
      · rintro ⟨h1, h2⟩
        rw [List.cons.injEq] at h2
        exact ⟨h2.1.symm, (ih cs).mpr ⟨h1, h2.2⟩⟩

/-! ### Structural lemmas about the substitution scan -/

theorem startsCI_head_false {p d : Char} (ps t : List Char) (hp : isWordChar p = true)
    (hd : isWordChar d = false) : startsCI (p :: ps) (d :: t) = false := by
  have hne : (lowC p == lowC d) = false := by
    rw [beq_eq_false_iff_ne]
    intro h
    rw [lowC_eq_word h, hd] at hp
    cases hp
  simp [startsCI, hne]

theorem subAux_nonword_head (p : Char) (ps rep : List Char) (prev : Bool) {d : Char}
    (t : List Char) (hp : isWordChar p = true) (hd : isWordChar d = false) :
    subAux p ps rep prev (d :: t) = d :: subAux p ps rep false t := by
  rw [subAux]
  rw [if_neg (by simp [startsCI_head_false ps t hp hd]), hd]

theorem subAux_run (p : Char) (ps rep : List Char) :
    ∀ (r t : List Char), AllWord r →
      subAux p ps rep true (r ++ t) = r ++ subAux p ps rep true t := by
  intro r
  induction r with
  | nil => intro t _; rfl
  | cons x r2 ih =>
    intro t hw
    have hx : isWordChar x = true := hw x (List.mem_cons_self x r2)
    rw [List.cons_append, subAux]
    rw [if_neg (by simp), hx, ih t (fun c hc => hw c (List.mem_cons_of_mem x hc)),
      List.cons_append]

theorem allWord_of_lowerL_eq : ∀ (a b : List Char), lowerL a = lowerL b →
    AllWord b → AllWord a := by
  intro a
  induction a with
  | nil => intro b _ _ c hc; cases hc
  | cons x a2 ih =>
    intro b h hb c hc
    cases b with
    | nil =>
      have := congrArg List.length h
      simp [lowerL] at this
    | cons y b2 =>
      simp only [lowerL, List.map_cons, List.cons.injEq] at h
      rcases List.mem_cons.mp hc with hcx | hca
      · subst hcx
        rw [lowC_eq_word h.1]
        exact hb y (List.mem_cons_self y b2)
      · exact ih b2 h.2 (fun e he => hb e (List.mem_cons_of_mem y he)) c hca

theorem dropWhile_first {p : Char → Bool} : ∀ (l : List Char) (c : Char) (t : List Char),
    l.dropWhile p = c :: t → p c = false := by
  intro l
  induction l with
  | nil => intro c t h; cases h
  | cons x l2 ih =>
    intro c t h
    by_cases hx : p x = true
    · rw [List.dropWhile_cons_of_pos hx] at h
      exact ih c t h
    · rw [List.dropWhile_cons_of_neg hx] at h
      injection h with h1 h2
      subst h1
      cases hpx : p x with
      | false => rfl
      | true => exact absurd hpx hx

/-! ### The scan computes a per-run substitution -/

theorem mapRuns_cons_word {c : Char} (g : List Char → List Char) (rest : List Char)
    (h : isWordChar c = true) :
    mapRuns g (c :: rest)
      = g (c :: rest.takeWhile isWordChar) ++ mapRuns g (rest.dropWhile isWordChar) := by
  rw [mapRuns, if_pos h]

theorem mapRuns_cons_nonword {c : Char} (g : List Char → List Char) (rest : List Char)
    (h : isWordChar c = false) :
    mapRuns g (c :: rest) = c :: mapRuns g rest := by
  rw [mapRuns, if_neg (by rw [h]; simp)]

theorem run_match_of_checks {p : Char} {ps : List Char} (hw : AllWord (p :: ps))
    {r t : List Char} (hrw : AllWord r)
    (hth : t = [] ∨ ∃ d t2, t = d :: t2 ∧ isWordChar d = false)
    (hsci : startsCI (p :: ps) (r ++ t) = true)
    (hba : bAfterOk (ps.length + 1) (r ++ t) = true) :
    lowerL r = lowerL (p :: ps) := by
  obtain ⟨hle, hlw⟩ := (startsCI_iff _ _).mp hsci
  rw [List.length_cons] at hle hlw
  have hallw : AllWord ((r ++ t).take (ps.length + 1)) :=
    allWord_of_lowerL_eq _ _ hlw hw
  have hler : ps.length + 1 ≤ r.length := by
    by_contra hgt
    push_neg at hgt
    obtain ⟨d, t2, ht, hd⟩ : ∃ d t2, t = d :: t2 ∧ isWordChar d = false := by
      rcases hth with h0 | h0
      · exfalso
        rw [h0] at hle
        simp only [List.append_nil] at hle
        omega
      · exact h0
    have hsub : (r ++ t).take (ps.length + 1)
        = r ++ (d :: t2).take (ps.length + 1 - r.length) := by
      rw [ht, List.take_append_eq_append_take, List.take_of_length_le (by omega)]
    have hdmem : d ∈ (r ++ t).take (ps.length + 1) := by
      rw [hsub]
      apply List.mem_append_right
      cases hn : ps.length + 1 - r.length with
      | zero => omega
      | succ m =>
        rw [List.take_succ_cons]
        exact List.mem_cons_self _ _
    have hcontra := hallw d hdmem
    rw [hd] at hcontra
    cases hcontra
  have heqlen : ps.length + 1 = r.length := by
    by_contra hne2
    have hlt : ps.length + 1 < r.length := by omega
    have hdrop : (r ++ t).drop (ps.length + 1) = r.drop (ps.length + 1) ++ t := by
      rw [List.drop_append_eq_append_drop, Nat.sub_eq_zero_of_le (le_of_lt hlt), List.drop_zero]
    obtain ⟨e, r3, hr3⟩ : ∃ e r3, r.drop (ps.length + 1) = e :: r3 := by
      cases hdd : r.drop (ps.length + 1) with
      | nil =>
        exfalso
        have := congrArg List.length hdd
        rw [List.length_drop] at this
        simp only [List.length_nil] at this
        omega
      | cons e r3 => exact ⟨e, r3, rfl⟩
    have hew : isWordChar e = true := by
      apply hrw e
      apply List.drop_subset (ps.length + 1)
      rw [hr3]
      exact List.mem_cons_self _ _
    unfold bAfterOk at hba
    rw [hdrop, hr3, List.cons_append] at hba
    simp only [hew, Bool.not_true] at hba
    cases hba
  have htake : (r ++ t).take (ps.length + 1) = r := by
    rw [heqlen, List.take_left]
  rw [htake] at hlw
  exact hlw

theorem run_cond_false {p : Char} {ps : List Char} (hw : AllWord (p :: ps))
    {r t : List Char} (hrw : AllWord r)
    (hth : t = [] ∨ ∃ d t2, t = d :: t2 ∧ isWordChar d = false)
    (hne : lowerL r ≠ lowerL (p :: ps)) (prev : Bool) :
    (!prev && startsCI (p :: ps) (r ++ t) && bAfterOk (ps.length + 1) (r ++ t)) = false := by
  cases h1 : startsCI (p :: ps) (r ++ t) with
  | false => simp [h1]
  | true =>
    cases h2 : bAfterOk (ps.length + 1) (r ++ t) with
    | false => simp [h2]
    | true => exact absurd (run_match_of_checks hw hrw hth h1 h2) hne

theorem subAux_eq_mapRuns (p : Char) (ps rep : List Char) (hw : AllWord (p :: ps)) :
    ∀ n (s : List Char), s.length ≤ n →
      subAux p ps rep false s = mapRuns (gsub (p :: ps) rep) s := by
  have hp : isWordChar p = true := hw p (List.mem_cons_self _ _)
  intro n
  induction n with
  | zero =>
    intro s hs
    have hnil : s = [] := List.eq_nil_of_length_eq_zero (Nat.le_zero.mp hs)
    subst hnil
    simp only [subAux, mapRuns]
  | succ n ih =>
    intro s hs
    cases s with
    | nil => simp only [subAux, mapRuns]
    | cons c rest =>
      rw [List.length_cons] at hs
      have hrestn : rest.length ≤ n := by omega
      by_cases hwc : isWordChar c = true
      case neg =>
        have hc : isWordChar c = false := by
          cases h : isWordChar c with
          | false => rfl
          | true => exact absurd h hwc
        rw [subAux_nonword_head p ps rep false rest hp hc,
          mapRuns_cons_nonword _ rest hc, ih rest hrestn]
      case pos =>
        have hsplit : c :: rest = (c :: rest.takeWhile isWordChar) ++ rest.dropWhile isWordChar := by
          rw [List.cons_append, List.takeWhile_append_dropWhile]
        have hrw : AllWord (c :: rest.takeWhile isWordChar) := by
          intro e he
          rcases List.mem_cons.mp he with h | h
          · subst h; exact hwc
          · exact List.mem_takeWhile_imp h
        have hth : rest.dropWhile isWordChar = []
            ∨ ∃ d t2, rest.dropWhile isWordChar = d :: t2 ∧ isWordChar d = false := by
          cases hc : rest.dropWhile isWordChar with
          | nil => exact Or.inl rfl
          | cons d t2 => exact Or.inr ⟨d, t2, rfl, dropWhile_first rest d t2 hc⟩
        have httlen : (rest.dropWhile isWordChar).length ≤ rest.length :=
          (List.dropWhile_sublist _).length_le
        have htt_scan : subAux p ps rep true (rest.dropWhile isWordChar)
            = mapRuns (gsub (p :: ps) rep) (rest.dropWhile isWordChar) := by
          rcases hth with h0 | ⟨d, t2, h0, hd⟩
          · rw [h0]; simp only [subAux, mapRuns]
          · rw [h0, subAux_nonword_head p ps rep true t2 hp hd,
              mapRuns_cons_nonword _ t2 hd, ih t2 (by
                have : t2.length < (rest.dropWhile isWordChar).length := by rw [h0]; simp
                omega)]
        by_cases heq : lowerL (c :: rest.takeWhile isWordChar) = lowerL (p :: ps)
        · have hlen : (c :: rest.takeWhile isWordChar).length = ps.length + 1 := by
            have hlc := congrArg List.length heq
            simpa [lowerL] using hlc
          have hsci : startsCI (p :: ps) (c :: rest) = true := by
            rw [hsplit]
            apply (startsCI_iff _ _).mpr
            refine ⟨?_, ?_⟩
            · rw [List.length_cons, List.length_append]
              omega
            · rw [List.length_cons, show ps.length + 1 = (c :: rest.takeWhile isWordChar).length
                from hlen.symm, List.take_left]
              exact heq
          have hba : bAfterOk (ps.length + 1) (c :: rest) = true := by
            rw [hsplit]
            unfold bAfterOk
            rw [show ps.length + 1 = (c :: rest.takeWhile isWordChar).length from hlen.symm,
              List.drop_left]
            rcases hth with h0 | ⟨d, t2, h0, hd⟩
            · rw [h0]
            · rw [h0]
              simp [hd]
          rw [subAux, if_pos (by simp [hsci, hba])]
          have hdrop : rest.drop ps.length = rest.dropWhile isWordChar := by
            have hstep : (c :: rest).drop (ps.length + 1) = rest.dropWhile isWordChar := by
              rw [hsplit, show ps.length + 1 = (c :: rest.takeWhile isWordChar).length
                from hlen.symm, List.drop_left]
            simpa using hstep
          rw [hdrop, mapRuns_cons_word _ rest hwc,
            show gsub (p :: ps) rep (c :: rest.takeWhile isWordChar) = rep from if_pos heq,
            htt_scan]
        · have hcond := run_cond_false hw hrw hth heq false
          rw [subAux, if_neg (by rw [← hsplit] at hcond; rw [hcond]; simp), hwc]
          have hsr : subAux p ps rep true rest
              = rest.takeWhile isWordChar ++ subAux p ps rep true (rest.dropWhile isWordChar) := by
            conv_lhs => rw [show rest = rest.takeWhile isWordChar ++ rest.dropWhile isWordChar
              from (List.takeWhile_append_dropWhile isWordChar rest).symm]
            exact subAux_run p ps rep _ _ (fun e he => List.mem_takeWhile_imp he)
          rw [hsr, htt_scan, mapRuns_cons_word _ rest hwc,
            show gsub (p :: ps) rep (c :: rest.takeWhile isWordChar)
              = c :: rest.takeWhile isWordChar from if_neg heq, List.cons_append]

theorem subWW_eq_mapRuns (p : Char) (ps rep : List Char) (hw : AllWord (p :: ps))
    (s : List Char) :
    subWW (p :: ps) rep s = mapRuns (gsub (p :: ps) rep) s := by
  unfold subWW
  exact subAux_eq_mapRuns p ps rep hw s.length s (Nat.le_refl _)

/-! ### Algebra of `mapRuns` -/

theorem takeWhile_append_all {p : Char → Bool} : ∀ (a b : List Char),
    (∀ c ∈ a, p c = true) → (a ++ b).takeWhile p = a ++ b.takeWhile p := by
  intro a
  induction a with
  | nil => intro b _; rfl
  | cons x a2 ih =>
    intro b h
    rw [List.cons_append, List.takeWhile_cons_of_pos (h x (List.mem_cons_self _ _)),
      ih b (fun c hc => h c (List.mem_cons_of_mem x hc)), List.cons_append]

theorem dropWhile_append_all {p : Char → Bool} : ∀ (a b : List Char),
    (∀ c ∈ a, p c = true) → (a ++ b).dropWhile p = b.dropWhile p := by
  intro a
  induction a with
  | nil => intro b _; rfl
  | cons x a2 ih =>
    intro b h
    rw [List.cons_append, List.dropWhile_cons_of_pos (h x (List.mem_cons_self _ _)),
      ih b (fun c hc => h c (List.mem_cons_of_mem x hc))]

theorem takeWhile_word_eq_nil {t : List Char} (h : NonWordHead t) :
    t.takeWhile isWordChar = [] := by
  rcases h with h | ⟨d, t2, h, hd⟩
  · rw [h]; rfl
  · rw [h, List.takeWhile_cons_of_neg (by rw [hd]; simp)]

theorem dropWhile_word_eq_self {t : List Char} (h : NonWordHead t) :
    t.dropWhile isWordChar = t := by
  rcases h with h | ⟨d, t2, h, hd⟩
  · rw [h]; rfl
  · rw [h, List.dropWhile_cons_of_neg (by rw [hd]; simp)]

theorem mapRuns_append_run (g : List Char → List Char) :
    ∀ (r t : List Char), r ≠ [] → AllWord r → NonWordHead t →
      mapRuns g (r ++ t) = g r ++ mapRuns g t := by
  intro r t hr hw hth
  cases r with
  | nil => exact absurd rfl hr
  | cons x r2 =>
    rw [List.cons_append, mapRuns_cons_word _ _ (hw x (List.mem_cons_self _ _))]
    have hr2w : ∀ c ∈ r2, isWordChar c = true := fun c hc => hw c (List.mem_cons_of_mem x hc)
    rw [takeWhile_append_all r2 t hr2w, takeWhile_word_eq_nil hth, List.append_nil,
      dropWhile_append_all r2 t hr2w, dropWhile_word_eq_self hth]

theorem mapRuns_nil (g : List Char → List Char) : mapRuns g [] = [] := by
  simp only [mapRuns]

theorem mapRuns_nonword_head {g : List Char → List Char} {t : List Char}
    (h : NonWordHead t) : NonWordHead (mapRuns g t) := by
  rcases h with h | ⟨d, t2, h, hd⟩
  · rw [h]; exact Or.inl (mapRuns_nil g)
  · rw [h, mapRuns_cons_nonword _ _ hd]
    exact Or.inr ⟨d, _, rfl, hd⟩

theorem mapRuns_comp (g1 g2 : List Char → List Char) (hg1 : GOK g1) :
    ∀ n (s : List Char), s.length ≤ n →
      mapRuns g2 (mapRuns g1 s) = mapRuns (fun r => g2 (g1 r)) s := by
  intro n
  induction n with
  | zero =>
    intro s hs
    have hnil : s = [] := List.eq_nil_of_length_eq_zero (Nat.le_zero.mp hs)
    subst hnil
    simp only [mapRuns]
  | succ n ih =>
    intro s hs
    cases s with
    | nil => simp only [mapRuns]
    | cons c rest =>
      rw [List.length_cons] at hs
      by_cases hwc : isWordChar c = true
      · have hth : NonWordHead (rest.dropWhile isWordChar) := by
          cases hc : rest.dropWhile isWordChar with
          | nil => exact Or.inl rfl
          | cons d t2 => exact Or.inr ⟨d, t2, rfl, dropWhile_first rest d t2 hc⟩
        have hrw : AllWord (c :: rest.takeWhile isWordChar) := by
          intro e he
          rcases List.mem_cons.mp he with h | h
          · subst h; exact hwc
          · exact List.mem_takeWhile_imp h
        have hgr := hg1 (c :: rest.takeWhile isWordChar) (by simp) hrw
        rw [mapRuns_cons_word g1 rest hwc,
          mapRuns_append_run g2 _ _ hgr.1 hgr.2 (mapRuns_nonword_head hth),
          mapRuns_cons_word _ rest hwc,
          ih (rest.dropWhile isWordChar)
            (le_trans (List.dropWhile_sublist _).length_le (by omega))]
      · have hc : isWordChar c = false := by
          cases h : isWordChar c with
          | false => rfl
          | true => exact absurd h hwc
        rw [mapRuns_cons_nonword g1 rest hc, mapRuns_cons_nonword g2 _ hc,
          mapRuns_cons_nonword _ rest hc, ih rest (by omega)]

theorem mapRuns_congr (g1 g2 : List Char → List Char)
    (h : ∀ r, r ≠ [] → AllWord r → g1 r = g2 r) :
    ∀ n (s : List Char), s.length ≤ n → mapRuns g1 s = mapRuns g2 s := by
  intro n
  induction n with
  | zero =>
    intro s hs
    have hnil : s = [] := List.eq_nil_of_length_eq_zero (Nat.le_zero.mp hs)
    subst hnil
    simp only [mapRuns]
  | succ n ih =>
    intro s hs
    cases s with
    | nil => simp only [mapRuns]
    | cons c rest =>
      rw [List.length_cons] at hs
      by_cases hwc : isWordChar c = true
      · have hrw : AllWord (c :: rest.takeWhile isWordChar) := by
          intro e he
          rcases List.mem_cons.mp he with hx | hx
          · subst hx; exact hwc
          · exact List.mem_takeWhile_imp hx
        rw [mapRuns_cons_word g1 rest hwc, mapRuns_cons_word g2 rest hwc,
          h _ (by simp) hrw,
          ih (rest.dropWhile isWordChar)
            (le_trans (List.dropWhile_sublist _).length_le (by omega))]
      · have hc : isWordChar c = false := by
          cases hx : isWordChar c with
          | false => rfl
          | true => exact absurd hx hwc
        rw [mapRuns_cons_nonword g1 rest hc, mapRuns_cons_nonword g2 rest hc, ih rest (by omega)]

theorem mapRuns_nonword_all (g : List Char → List Char) :
    ∀ a : List Char, (∀ c ∈ a, isWordChar c = false) → mapRuns g a = a := by
  intro a
  induction a with
  | nil => intro _; exact mapRuns_nil g
  | cons x a2 ih =>
    intro h
    rw [mapRuns_cons_nonword _ _ (h x (List.mem_cons_self _ _)),
      ih (fun c hc => h c (List.mem_cons_of_mem x hc))]

theorem mapRuns_nonword_left (g : List Char → List Char) :
    ∀ (a s : List Char), (∀ c ∈ a, isWordChar c = false) →
      mapRuns g (a ++ s) = a ++ mapRuns g s := by
  intro a
  induction a with
  | nil => intro s _; rw [List.nil_append, List.nil_append]
  | cons x a2 ih =>
    intro s h
    rw [List.cons_append, mapRuns_cons_nonword _ _ (h x (List.mem_cons_self _ _)),
      ih s (fun c hc => h c (List.mem_cons_of_mem x hc)), List.cons_append]

theorem nonwordhead_of_all {b : List Char} (hb : ∀ c ∈ b, isWordChar c = false) :
    NonWordHead b := by
  cases hq : b with
  | nil => exact Or.inl rfl
  | cons d b2 => exact Or.inr ⟨d, b2, rfl, hb d (hq ▸ List.mem_cons_self _ _)⟩

theorem mapRuns_nonword_right (g : List Char → List Char) :
    ∀ n (x b : List Char), x.length ≤ n → (∀ c ∈ b, isWordChar c = false) →
      mapRuns g (x ++ b) = mapRuns g x ++ b := by
  intro n
  induction n with
  | zero =>
    intro x b hx hb
    have hnil : x = [] := List.eq_nil_of_length_eq_zero (Nat.le_zero.mp hx)
    subst hnil
    rw [List.nil_append, mapRuns_nonword_all g b hb]
    simp only [mapRuns, List.nil_append]
  | succ n ih =>
    intro x b hx hb
    cases x with
    | nil =>
      rw [List.nil_append, mapRuns_nonword_all g b hb]
      simp only [mapRuns, List.nil_append]
    | cons c x2 =>
      rw [List.length_cons] at hx
      by_cases hwc : isWordChar c = true
      · by_cases hdne : x2.dropWhile isWordChar = []
        · have htx : x2.takeWhile isWordChar = x2 := by
            have h0 := List.takeWhile_append_dropWhile isWordChar x2
            rw [hdne, List.append_nil] at h0
            exact h0
          have hx2w : ∀ e ∈ x2, isWordChar e = true := by
            intro e he
            rw [← htx] at he
            exact List.mem_takeWhile_imp he
          rw [List.cons_append, mapRuns_cons_word _ _ hwc, mapRuns_cons_word _ _ hwc,
            takeWhile_append_all _ _ hx2w, dropWhile_append_all _ _ hx2w, htx, hdne,
            takeWhile_word_eq_nil (nonwordhead_of_all hb),
            dropWhile_word_eq_self (nonwordhead_of_all hb), List.append_nil,
            mapRuns_nonword_all g b hb]
          simp only [mapRuns, List.append_nil]
        · obtain ⟨d, dw2, hdw, hdnw⟩ :
              ∃ d dw2, x2.dropWhile isWordChar = d :: dw2 ∧ isWordChar d = false := by
            cases hq : x2.dropWhile isWordChar with
            | nil => exact absurd hq hdne
            | cons d dw2 => exact ⟨d, dw2, rfl, dropWhile_first x2 d dw2 hq⟩
          have htw : (x2 ++ b).takeWhile isWordChar = x2.takeWhile isWordChar := by
            conv_lhs =>
              rw [show x2 = x2.takeWhile isWordChar ++ x2.dropWhile isWordChar from
                (List.takeWhile_append_dropWhile isWordChar x2).symm]
            rw [List.append_assoc,
              takeWhile_append_all _ _ (fun e he => List.mem_takeWhile_imp he), hdw,
              List.cons_append, List.takeWhile_cons_of_neg (by rw [hdnw]; simp),
              List.append_nil]
          have hdwb : (x2 ++ b).dropWhile isWordChar = x2.dropWhile isWordChar ++ b :=
            dropWhile_append_ne b hdne
          rw [List.cons_append, mapRuns_cons_word _ _ hwc, mapRuns_cons_word _ _ hwc, htw,
            hdwb,
            ih (x2.dropWhile isWordChar) b
              (le_trans (List.dropWhile_sublist _).length_le (by omega)) hb,
            List.append_assoc]
      · have hc : isWordChar c = false := by
          cases hq : isWordChar c with
          | false => rfl
          | true => exact absurd hq hwc
        rw [List.cons_append, mapRuns_cons_nonword _ _ hc, mapRuns_cons_nonword _ _ hc,
          ih x2 b (by omega) hb, List.cons_append]

/-! ### Collapse commutes with per-run substitution -/

theorem collapse_nil : collapse [] = [] := rfl

theorem collapse_cons_nonspace {c : Char} (rest : List Char) (h : isSpace c = false) :
    collapse (c :: rest) = c :: collapse rest := by
  cases rest with
  | nil => simp [collapse, h]
  | cons d rest2 => simp [collapse, h]

theorem collapse_cons_space : ∀ (rest : List Char) {c : Char}, isSpace c = true →
    collapse (c :: rest) = ' ' :: collapse (rest.dropWhile isSpace) := by
  intro rest
  induction rest with
  | nil =>
    intro c h
    simp [collapse, h]
  | cons d rest2 ih =>
    intro c h
    by_cases hd : isSpace d = true
    · rw [show collapse (c :: d :: rest2) = collapse (d :: rest2) by simp [collapse, h, hd],
        ih hd, List.dropWhile_cons_of_pos hd]
    · have hd2 : isSpace d = false := by
        cases hq : isSpace d with
        | false => rfl
        | true => exact absurd hq hd
      rw [show collapse (c :: d :: rest2) = ' ' :: collapse (d :: rest2) by
          simp [collapse, h, hd2],
        List.dropWhile_cons_of_neg (by rw [hd2]; simp)]

theorem collapse_append_word :
    ∀ (r t : List Char), AllWord r → collapse (r ++ t) = r ++ collapse t := by
  intro r
  induction r with
  | nil => intro t _; rw [List.nil_append, List.nil_append]
  | cons x r2 ih =>
    intro t hw
    have hx : isSpace x = false := isWordChar_not_space (hw x (List.mem_cons_self _ _))
    rw [List.cons_append, collapse_cons_nonspace _ hx,
      ih t (fun c hc => hw c (List.mem_cons_of_mem x hc)), List.cons_append]

theorem collapse_nonword_head {t : List Char} (h : NonWordHead t) :
    NonWordHead (collapse t) := by
  rcases h with h | ⟨d, t2, h, hd⟩
  · rw [h, collapse_nil]; exact Or.inl rfl
  · subst h
    by_cases hsp : isSpace d = true
    · rw [collapse_cons_space _ hsp]
      exact Or.inr ⟨' ', _, rfl, by decide⟩
    · have hsp2 : isSpace d = false := by
        cases hq : isSpace d with
        | false => rfl
        | true => exact absurd hq hsp
      rw [collapse_cons_nonspace _ hsp2]
      exact Or.inr ⟨d, _, rfl, hd⟩

theorem dropWhile_isSpace_mapRuns (g : List Char → List Char) (hg : GOK g) :
    ∀ s : List Char, (mapRuns g s).dropWhile isSpace = mapRuns g (s.dropWhile isSpace) := by
  intro s
  induction s with
  | nil => rw [mapRuns_nil]; rw [show List.dropWhile isSpace ([] : List Char) = [] from rfl, mapRuns_nil]
  | cons c rest ih =>
    by_cases hsp : isSpace c = true
    · have hnw : isWordChar c = false := isSpace_not_word hsp
      rw [mapRuns_cons_nonword _ _ hnw, List.dropWhile_cons_of_pos hsp,
        List.dropWhile_cons_of_pos hsp, ih]
    · have hsp2 : isSpace c = false := by
        cases hq : isSpace c with
        | false => rfl
        | true => exact absurd hq hsp
      rw [List.dropWhile_cons_of_neg (by rw [hsp2]; simp)]
      by_cases hwc : isWordChar c = true
      · rw [mapRuns_cons_word _ _ hwc]
        have hrw : AllWord (c :: rest.takeWhile isWordChar) := by
          intro e he
          rcases List.mem_cons.mp he with hx | hx
          · subst hx; exact hwc
          · exact List.mem_takeWhile_imp hx
        obtain ⟨hne, hallw⟩ := hg _ (by simp) hrw
        obtain ⟨e, gr2, hgr⟩ : ∃ e gr2, g (c :: rest.takeWhile isWordChar) = e :: gr2 := by
          cases hq : g (c :: rest.takeWhile isWordChar) with
          | nil => exact absurd hq hne
          | cons e gr2 => exact ⟨e, gr2, rfl⟩
        have hes : isSpace e = false :=
          isWordChar_not_space (hallw e (hgr ▸ List.mem_cons_self _ _))
        rw [hgr, List.cons_append, List.dropWhile_cons_of_neg (by rw [hes]; simp)]
      · have hc : isWordChar c = false := by
          cases hq : isWordChar c with
          | false => rfl
          | true => exact absurd hq hwc
        rw [mapRuns_cons_nonword _ _ hc,
          List.dropWhile_cons_of_neg (by rw [hsp2]; simp)]

theorem mapRuns_collapse (g : List Char → List Char) (hg : GOK g) :
    ∀ n (s : List Char), s.length ≤ n →
      mapRuns g (collapse s) = collapse (mapRuns g s) := by
  intro n
  induction n with
  | zero =>
    intro s hs
    have hnil : s = [] := List.eq_nil_of_length_eq_zero (Nat.le_zero.mp hs)
    subst hnil
    rw [collapse_nil, mapRuns_nil, collapse_nil]
  | succ n ih =>
    intro s hs
    cases s with
    | nil => rw [collapse_nil, mapRuns_nil, collapse_nil]
    | cons c rest =>
      rw [List.length_cons] at hs
      by_cases hsp : isSpace c = true
      · have hnw : isWordChar c = false := isSpace_not_word hsp
        rw [collapse_cons_space _ hsp, mapRuns_cons_nonword _ _ (by decide : isWordChar ' ' = false),
          ih (rest.dropWhile isSpace)
            (le_trans (List.dropWhile_sublist _).length_le (by omega)),
          mapRuns_cons_nonword _ _ hnw, collapse_cons_space _ hsp,
          dropWhile_isSpace_mapRuns g hg]
      · have hsp2 : isSpace c = false := by
          cases hq : isSpace c with
          | false => rfl
          | true => exact absurd hq hsp
        by_cases hwc : isWordChar c = true
        · have hrw : AllWord (c :: rest.takeWhile isWordChar) := by
            intro e he
            rcases List.mem_cons.mp he with hx | hx
            · subst hx; exact hwc
            · exact List.mem_takeWhile_imp hx
          have hth : NonWordHead (rest.dropWhile isWordChar) := by
            cases hq : rest.dropWhile isWordChar with
            | nil => exact Or.inl rfl
            | cons d t2 => exact Or.inr ⟨d, t2, rfl, dropWhile_first rest d t2 hq⟩
          have hsplit : c :: rest
              = (c :: rest.takeWhile isWordChar) ++ rest.dropWhile isWordChar := by
            rw [List.cons_append, List.takeWhile_append_dropWhile]
          have hgr := hg _ (by simp : (c :: rest.takeWhile isWordChar) ≠ []) hrw
          rw [hsplit, collapse_append_word _ _ hrw,
            mapRuns_append_run g _ _ (by simp) hrw (collapse_nonword_head hth),
            mapRuns_append_run g _ _ (by simp) hrw hth,
            collapse_append_word _ _ hgr.2,
            ih (rest.dropWhile isWordChar)
              (le_trans (List.dropWhile_sublist _).length_le (by omega))]
        · have hc : isWordChar c = false := by
            cases hq : isWordChar c with
            | false => rfl
            | true => exact absurd hq hwc
          rw [collapse_cons_nonspace _ hsp2, mapRuns_cons_nonword _ _ hc,
            mapRuns_cons_nonword _ _ hc, collapse_cons_nonspace _ hsp2, ih rest (by omega)]

/-! ### Collapse normal form and the strips -/

theorem collapse_head_shape :
    ∀ t : List Char, (t = [] ∨ ∃ d t2, t = d :: t2 ∧ isSpace d = false) →
      (collapse t = [] ∨ ∃ d t2, collapse t = d :: t2 ∧ isSpace d = false) := by
  intro t h
  rcases h with h | ⟨d, t2, h, hd⟩
  · rw [h, collapse_nil]; exact Or.inl rfl
  · rw [h, collapse_cons_nonspace _ hd]
    exact Or.inr ⟨d, _, rfl, hd⟩

theorem collapsedOK_cons_nonspace {c : Char} (t : List Char) (h : isSpace c = false) :
    collapsedOK (c :: t) = collapsedOK t := by
  simp only [collapsedOK, h]
  simp

theorem collapsedOK_cons_space (t : List Char) :
    collapsedOK (' ' :: t)
      = ((match t with | [] => true | d :: _ => !isSpace d) && collapsedOK t) := by
  simp only [collapsedOK]
  simp [isSpace]

theorem collapsedOK_collapse :
    ∀ n (s : List Char), s.length ≤ n → collapsedOK (collapse s) = true := by
  intro n
  induction n with
  | zero =>
    intro s hs
    have hnil : s = [] := List.eq_nil_of_length_eq_zero (Nat.le_zero.mp hs)
    subst hnil
    rw [collapse_nil]
    rfl
  | succ n ih =>
    intro s hs
    cases s with
    | nil => rw [collapse_nil]; rfl
    | cons c rest =>
      rw [List.length_cons] at hs
      by_cases hsp : isSpace c = true
      · rw [collapse_cons_space _ hsp, collapsedOK_cons_space]
        have hsh : collapse (rest.dropWhile isSpace) = []
            ∨ ∃ d t2, collapse (rest.dropWhile isSpace) = d :: t2 ∧ isSpace d = false := by
          apply collapse_head_shape
          cases hq : rest.dropWhile isSpace with
          | nil => exact Or.inl rfl
          | cons d t2 => exact Or.inr ⟨d, t2, rfl, dropWhile_first rest d t2 hq⟩
        have hcOK : collapsedOK (collapse (rest.dropWhile isSpace)) = true :=
          ih _ (le_trans (List.dropWhile_sublist _).length_le (by omega))
        rcases hsh with h0 | ⟨d, t2, h0, hd⟩
        · rw [h0] at hcOK ⊢
          simp [hcOK]
        · rw [h0] at hcOK ⊢
          simp [hcOK, hd]
      · have hsp2 : isSpace c = false := by
          cases hq : isSpace c with
          | false => rfl
          | true => exact absurd hq hsp
        rw [collapse_cons_nonspace _ hsp2, collapsedOK_cons_nonspace _ hsp2,
          ih rest (by omega)]

theorem collapse_of_collapsedOK : ∀ s : List Char, collapsedOK s = true → collapse s = s := by
  intro s
  induction s with
  | nil => intro _; exact collapse_nil
  | cons c t ih =>
    intro h
    by_cases hsp : isSpace c = true
    · cases t with
      | nil =>
        have hcsp : c = ' ' := by
          simp only [collapsedOK, hsp, Bool.not_true, Bool.false_or, Bool.and_eq_true] at h
          simpa using h.1.1
        rw [collapse_cons_space _ hsp,
          show List.dropWhile isSpace ([] : List Char) = [] from rfl, collapse_nil, hcsp]
      | cons d t2 =>
        simp only [collapsedOK, hsp, Bool.not_true, Bool.false_or, Bool.and_eq_true] at h
        have hcsp : c = ' ' := by simpa using h.1.1
        have hd : isSpace d = false := by simpa using h.1.2
        rw [collapse_cons_space _ hsp, List.dropWhile_cons_of_neg (by rw [hd]; simp)]
        rw [ih (by simp only [collapsedOK, Bool.and_eq_true]; exact h.2), hcsp]
    · have hsp2 : isSpace c = false := by
        cases hq : isSpace c with
        | false => rfl
        | true => exact absurd hq hsp
      rw [collapse_cons_nonspace _ hsp2, ih (by rwa [collapsedOK_cons_nonspace _ hsp2] at h)]

theorem collapsedOK_tail {c : Char} {t : List Char} (h : collapsedOK (c :: t) = true) :
    collapsedOK t = true := by
  simp only [collapsedOK, Bool.and_eq_true] at h
  exact h.2

theorem collapsedOK_dropWhile (p : Char → Bool) :
    ∀ s : List Char, collapsedOK s = true → collapsedOK (s.dropWhile p) = true := by
  intro s
  induction s with
  | nil => intro h; exact h
  | cons c t ih =>
    intro h
    by_cases hp : p c = true
    · rw [List.dropWhile_cons_of_pos hp]
      exact ih (collapsedOK_tail h)
    · rw [List.dropWhile_cons_of_neg hp]
      exact h

theorem collapsedOK_append_left :
    ∀ a b : List Char, collapsedOK (a ++ b) = true → collapsedOK a = true := by
  intro a
  induction a with
  | nil => intro b _; rfl
  | cons c a2 ih =>
    intro b h
    rw [List.cons_append] at h
    have ht : collapsedOK a2 = true := ih b (collapsedOK_tail h)
    by_cases hsp : isSpace c = true
    · cases a2 with
      | nil =>
        cases b with
        | nil => simpa using h
        | cons e b2 =>
          simp only [List.nil_append] at h
          simp only [collapsedOK, hsp, Bool.not_true, Bool.false_or, Bool.and_eq_true] at h ⊢
          exact ⟨by simpa using h.1.1, trivial⟩
      | cons d a3 =>
        rw [List.cons_append] at h
        simp only [collapsedOK, hsp, Bool.not_true, Bool.false_or, Bool.and_eq_true] at h ⊢
        exact ⟨⟨h.1.1, h.1.2⟩, by simpa [collapsedOK] using ht⟩
    · have hsp2 : isSpace c = false := by
        cases hq : isSpace c with
        | false => rfl
        | true => exact absurd hq hsp
      rw [collapsedOK_cons_nonspace _ hsp2]
      exact ht

theorem dropWhile_idem (p : Char → Bool) (l : List Char) :
    (l.dropWhile p).dropWhile p = l.dropWhile p := by
  cases hq : l.dropWhile p with
  | nil => rfl
  | cons c t => rw [List.dropWhile_cons_of_neg (by rw [dropWhile_first l c t hq]; simp)]

theorem rstrip_idem (s : List Char) : rstrip (rstrip s) = rstrip s := by
  unfold rstrip
  rw [List.reverse_reverse, dropWhile_idem]

theorem lstrip_idem (s : List Char) : lstrip (lstrip s) = lstrip s := by
  unfold lstrip
  exact dropWhile_idem isSpace s

theorem rstrip_decomp (s : List Char) :
    s = rstrip s ++ (s.reverse.takeWhile isSpace).reverse
      ∧ ∀ c ∈ (s.reverse.takeWhile isSpace).reverse, isSpace c = true := by
  constructor
  · unfold rstrip
    rw [← List.reverse_append, List.takeWhile_append_dropWhile, List.reverse_reverse]
  · intro c hc
    rw [List.mem_reverse] at hc
    exact List.mem_takeWhile_imp hc

theorem lstrip_decomp (s : List Char) :
    s = s.takeWhile isSpace ++ lstrip s ∧ ∀ c ∈ s.takeWhile isSpace, isSpace c = true :=
  ⟨(List.takeWhile_append_dropWhile isSpace s).symm, fun _ hc => List.mem_takeWhile_imp hc⟩

theorem lstrip_head_shape (s : List Char) :
    lstrip s = [] ∨ ∃ d t2, lstrip s = d :: t2 ∧ isSpace d = false := by
  cases hq : lstrip s with
  | nil => exact Or.inl rfl
  | cons d t2 => exact Or.inr ⟨d, t2, rfl, dropWhile_first s d t2 hq⟩

theorem rstrip_head_eq (s : List Char) {x : List Char} (hx : rstrip s = x) :
    ∀ d t2, x = d :: t2 → ∃ t3, s = d :: t3 := by
  intro d t2 hdt
  obtain ⟨hdec, _⟩ := rstrip_decomp s
  rw [hx, hdt] at hdec
  exact ⟨_, by rw [hdec, List.cons_append]⟩

theorem lstrip_of_head_nonspace {s : List Char}
    (h : s = [] ∨ ∃ d t2, s = d :: t2 ∧ isSpace d = false) : lstrip s = s := by
  rcases h with h | ⟨d, t2, h, hd⟩
  · rw [h]; rfl
  · rw [h]
    unfold lstrip
    rw [List.dropWhile_cons_of_neg (by rw [hd]; simp)]

theorem pstrip_pstrip (s : List Char) : pstrip (pstrip s) = pstrip s := by
  unfold pstrip
  have hls : lstrip (rstrip (lstrip s)) = rstrip (lstrip s) := by
    apply lstrip_of_head_nonspace
    cases hq : rstrip (lstrip s) with
    | nil => exact Or.inl rfl
    | cons d t2 =>
      obtain ⟨t3, ht3⟩ := rstrip_head_eq (lstrip s) hq d t2 rfl
      rcases lstrip_head_shape s with h0 | ⟨e, t4, h0, he⟩
      · rw [h0] at ht3; cases ht3
      · rw [h0] at ht3
        injection ht3 with h1 _
        exact Or.inr ⟨d, t2, rfl, h1 ▸ he⟩
  rw [hls, rstrip_idem]

/-! ### Transfer of run-fixedness along collapse and the strips -/

theorem mapRuns_fix_collapse {g : List Char → List Char} (hg : GOK g) {s : List Char}
    (h : mapRuns g s = s) : mapRuns g (collapse s) = collapse s := by
  rw [mapRuns_collapse g hg s.length s (Nat.le_refl _), h]

theorem mapRuns_fix_lstrip {g : List Char → List Char} {s : List Char}
    (h : mapRuns g s = s) : mapRuns g (lstrip s) = lstrip s := by
  obtain ⟨hdec, hsp⟩ := lstrip_decomp s
  have hnw : ∀ c ∈ s.takeWhile isSpace, isWordChar c = false :=
    fun c hc => isSpace_not_word (hsp c hc)
  have h2 : mapRuns g (s.takeWhile isSpace ++ lstrip s)
      = s.takeWhile isSpace ++ lstrip s := by rw [← hdec, h]
  rw [mapRuns_nonword_left g _ _ hnw] at h2
  exact List.append_cancel_left h2

theorem mapRuns_fix_rstrip {g : List Char → List Char} {s : List Char}
    (h : mapRuns g s = s) : mapRuns g (rstrip s) = rstrip s := by
  obtain ⟨hdec, hsp⟩ := rstrip_decomp s
  have hnw : ∀ c ∈ (s.reverse.takeWhile isSpace).reverse, isWordChar c = false :=
    fun c hc => isSpace_not_word (hsp c hc)
  have h2 : mapRuns g (rstrip s ++ (s.reverse.takeWhile isSpace).reverse)
      = rstrip s ++ (s.reverse.takeWhile isSpace).reverse := by rw [← hdec, h]
  rw [mapRuns_nonword_right g (rstrip s).length (rstrip s) _ (Nat.le_refl _) hnw] at h2
  exact List.append_cancel_right h2

theorem mapRuns_fix_pstrip {g : List Char → List Char} {s : List Char}
    (h : mapRuns g s = s) : mapRuns g (pstrip s) = pstrip s :=
  mapRuns_fix_rstrip (mapRuns_fix_lstrip h)

/-! ### The three substitution chains as run maps -/

theorem gsub_GOK (pat rep : List Char) (hne : rep ≠ []) (hw : AllWord rep) :
    GOK (gsub pat rep) := by
  intro r hr hrw
  unfold gsub
  split_ifs with h
  · exact ⟨hne, hw⟩
  · exact ⟨hr, hrw⟩

theorem GOK_comp (g1 g2 : List Char → List Char) (h1 : GOK g1) (h2 : GOK g2) :
    GOK (fun r => g2 (g1 r)) := by
  intro r hr hrw
  obtain ⟨ha, hb⟩ := h1 r hr hrw
  exact h2 (g1 r) ha hb

theorem colorSubs_eq (s : List Char) : colorSubs s = mapRuns gColor s := by
  have h1 : GOK (gsub "blk".data "black".data) := gsub_GOK _ _ (by decide) (by decide)
  have h2 : GOK (gsub "wht".data "white".data) := gsub_GOK _ _ (by decide) (by decide)
  have h3 : GOK (gsub "red".data "red".data) := gsub_GOK _ _ (by decide) (by decide)
  have h4 : GOK (gsub "blu".data "blue".data) := gsub_GOK _ _ (by decide) (by decide)
  unfold colorSubs
  rw [subWW_eq_mapRuns _ _ _ (by decide), subWW_eq_mapRuns _ _ _ (by decide),
    subWW_eq_mapRuns _ _ _ (by decide), subWW_eq_mapRuns _ _ _ (by decide),
    subWW_eq_mapRuns _ _ _ (by decide)]
  rw [mapRuns_comp _ _ h1 s.length s (Nat.le_refl _)]
  rw [mapRuns_comp _ _ (GOK_comp _ _ h1 h2) _ _ (Nat.le_refl _)]
  rw [mapRuns_comp _ _ (GOK_comp _ _ (GOK_comp _ _ h1 h2) h3) _ _ (Nat.le_refl _)]
  rw [mapRuns_comp _ _ (GOK_comp _ _ (GOK_comp _ _ (GOK_comp _ _ h1 h2) h3) h4) _ _ (Nat.le_refl _)]
  rfl

theorem materialSubs_eq (s : List Char) : materialSubs s = mapRuns gMaterial s := by
  have h1 : GOK (gsub "cotton".data "Cotton".data) := gsub_GOK _ _ (by decide) (by decide)
  have h2 : GOK (gsub "polyester".data "Polyester".data) := gsub_GOK _ _ (by decide) (by decide)
  have h3 : GOK (gsub "wool".data "Wool".data) := gsub_GOK _ _ (by decide) (by decide)
  have h4 : GOK (gsub "silk".data "Silk".data) := gsub_GOK _ _ (by decide) (by decide)
  unfold materialSubs
  rw [subWW_eq_mapRuns _ _ _ (by decide), subWW_eq_mapRuns _ _ _ (by decide),
    subWW_eq_mapRuns _ _ _ (by decide), subWW_eq_mapRuns _ _ _ (by decide),
    subWW_eq_mapRuns _ _ _ (by decide)]
  rw [mapRuns_comp _ _ h1 s.length s (Nat.le_refl _)]
  rw [mapRuns_comp _ _ (GOK_comp _ _ h1 h2) _ _ (Nat.le_refl _)]
  rw [mapRuns_comp _ _ (GOK_comp _ _ (GOK_comp _ _ h1 h2) h3) _ _ (Nat.le_refl _)]
  rw [mapRuns_comp _ _ (GOK_comp _ _ (GOK_comp _ _ (GOK_comp _ _ h1 h2) h3) h4) _ _ (Nat.le_refl _)]
  rfl

theorem dimSubs_eq (s : List Char) : dimSubs s = mapRuns gDim s := by
  have h1 : GOK (gsub "inches".data "in".data) := gsub_GOK _ _ (by decide) (by decide)
  have h2 : GOK (gsub "centimeters".data "cm".data) := gsub_GOK _ _ (by decide) (by decide)
  unfold dimSubs
  rw [subWW_eq_mapRuns _ _ _ (by decide), subWW_eq_mapRuns _ _ _ (by decide),
    subWW_eq_mapRuns _ _ _ (by decide)]
  rw [mapRuns_comp _ _ h1 s.length s (Nat.le_refl _)]
  rw [mapRuns_comp _ _ (GOK_comp _ _ h1 h2) _ _ (Nat.le_refl _)]
  rfl

theorem gColor_GOK : GOK gColor := by
  apply GOK_comp _ (gsub "grn".data "green".data)
  apply GOK_comp _ (gsub "blu".data "blue".data)
  apply GOK_comp _ (gsub "red".data "red".data)
  apply GOK_comp _ (gsub "wht".data "white".data)
  · exact gsub_GOK _ _ (by decide) (by decide)
  · exact gsub_GOK _ _ (by decide) (by decide)
  · exact gsub_GOK _ _ (by decide) (by decide)
  · exact gsub_GOK _ _ (by decide) (by decide)
  · exact gsub_GOK _ _ (by decide) (by decide)

theorem gMaterial_GOK : GOK gMaterial := by
  apply GOK_comp _ (gsub "leather".data "Leather".data)
  apply GOK_comp _ (gsub "silk".data "Silk".data)
  apply GOK_comp _ (gsub "wool".data "Wool".data)
  apply GOK_comp _ (gsub "polyester".data "Polyester".data)
  · exact gsub_GOK _ _ (by decide) (by decide)
  · exact gsub_GOK _ _ (by decide) (by decide)
  · exact gsub_GOK _ _ (by decide) (by decide)
  · exact gsub_GOK _ _ (by decide) (by decide)
  · exact gsub_GOK _ _ (by decide) (by decide)

theorem gDim_GOK : GOK gDim := by
  apply GOK_comp _ (gsub "millimeters".data "mm".data)
  apply GOK_comp _ (gsub "centimeters".data "cm".data)
  · exact gsub_GOK _ _ (by decide) (by decide)
  · exact gsub_GOK _ _ (by decide) (by decide)
  · exact gsub_GOK _ _ (by decide) (by decide)

/-! ### Idempotence of the run-level actions -/

theorem gsub_eq_rep (pat rep r : List Char) (h : lowerL r = lowerL pat) :
    gsub pat rep r = rep := if_pos h

theorem gsub_eq_self (pat rep r : List Char) (h : lowerL r ≠ lowerL pat) :
    gsub pat rep r = r := if_neg h

theorem gColor_idem (r : List Char) : gColor (gColor r) = gColor r := by
  by_cases h1 : lowerL r = lowerL "blk".data
  · have hv : gColor r = "black".data := by
      unfold gColor
      rw [gsub_eq_rep _ _ _ h1]
      decide
    rw [hv]
    decide
  · by_cases h2 : lowerL r = lowerL "wht".data
    · have hv : gColor r = "white".data := by
        unfold gColor
        rw [gsub_eq_self _ _ _ h1, gsub_eq_rep _ _ _ h2]
        decide
      rw [hv]
      decide
    · by_cases h3 : lowerL r = lowerL "red".data
      · have hv : gColor r = "red".data := by
          unfold gColor
          rw [gsub_eq_self _ _ _ h1, gsub_eq_self _ _ _ h2, gsub_eq_rep _ _ _ h3]
          decide
        rw [hv]
        decide
      · by_cases h4 : lowerL r = lowerL "blu".data
        · have hv : gColor r = "blue".data := by
            unfold gColor
            rw [gsub_eq_self _ _ _ h1, gsub_eq_self _ _ _ h2, gsub_eq_self _ _ _ h3,
              gsub_eq_rep _ _ _ h4]
            decide
          rw [hv]
          decide
        · by_cases h5 : lowerL r = lowerL "grn".data
          · have hv : gColor r = "green".data := by
              unfold gColor
              rw [gsub_eq_self _ _ _ h1, gsub_eq_self _ _ _ h2, gsub_eq_self _ _ _ h3,
                gsub_eq_self _ _ _ h4, gsub_eq_rep _ _ _ h5]
            rw [hv]
            decide
          · have hv : gColor r = r := by
              unfold gColor
              rw [gsub_eq_self _ _ _ h1, gsub_eq_self _ _ _ h2, gsub_eq_self _ _ _ h3,
                gsub_eq_self _ _ _ h4, gsub_eq_self _ _ _ h5]
            rw [hv, hv]

theorem gMaterial_idem (r : List Char) : gMaterial (gMaterial r) = gMaterial r := by
  by_cases h1 : lowerL r = lowerL "cotton".data
  · have hv : gMaterial r = "Cotton".data := by
      unfold gMaterial
      rw [gsub_eq_rep _ _ _ h1]
      decide
    rw [hv]
    decide
  · by_cases h2 : lowerL r = lowerL "polyester".data
    · have hv : gMaterial r = "Polyester".data := by
        unfold gMaterial
        rw [gsub_eq_self _ _ _ h1, gsub_eq_rep _ _ _ h2]
        decide
      rw [hv]
      decide
    · by_cases h3 : lowerL r = lowerL "wool".data
      · have hv : gMaterial r = "Wool".data := by
          unfold gMaterial
          rw [gsub_eq_self _ _ _ h1, gsub_eq_self _ _ _ h2, gsub_eq_rep _ _ _ h3]
          decide
        rw [hv]
        decide
      · by_cases h4 : lowerL r = lowerL "silk".data
        · have hv : gMaterial r = "Silk".data := by
            unfold gMaterial
            rw [gsub_eq_self _ _ _ h1, gsub_eq_self _ _ _ h2, gsub_eq_self _ _ _ h3,
              gsub_eq_rep _ _ _ h4]
            decide
          rw [hv]
          decide
        · by_cases h5 : lowerL r = lowerL "leather".data
          · have hv : gMaterial r = "Leather".data := by
              unfold gMaterial
              rw [gsub_eq_self _ _ _ h1, gsub_eq_self _ _ _ h2, gsub_eq_self _ _ _ h3,
                gsub_eq_self _ _ _ h4, gsub_eq_rep _ _ _ h5]
            rw [hv]
            decide
          · have hv : gMaterial r = r := by
              unfold gMaterial
              rw [gsub_eq_self _ _ _ h1, gsub_eq_self _ _ _ h2, gsub_eq_self _ _ _ h3,
                gsub_eq_self _ _ _ h4, gsub_eq_self _ _ _ h5]
            rw [hv, hv]

theorem gDim_idem (r : List Char) : gDim (gDim r) = gDim r := by
  by_cases h1 : lowerL r = lowerL "inches".data
  · have hv : gDim r = "in".data := by
      unfold gDim
      rw [gsub_eq_rep _ _ _ h1]
      decide
    rw [hv]
    decide
  · by_cases h2 : lowerL r = lowerL "centimeters".data
    · have hv : gDim r = "cm".data := by
        unfold gDim
        rw [gsub_eq_self _ _ _ h1, gsub_eq_rep _ _ _ h2]
        decide
      rw [hv]
      decide
    · by_cases h3 : lowerL r = lowerL "millimeters".data
      · have hv : gDim r = "mm".data := by
          unfold gDim
          rw [gsub_eq_self _ _ _ h1, gsub_eq_self _ _ _ h2, gsub_eq_rep _ _ _ h3]
        rw [hv]
        decide
      · have hv : gDim r = r := by
          unfold gDim
          rw [gsub_eq_self _ _ _ h1, gsub_eq_self _ _ _ h2, gsub_eq_self _ _ _ h3]
        rw [hv, hv]

/-! ### Assembly: the cleaner pipeline is idempotent -/

theorem mapRuns_self_fix {g : List Char → List Char} (hg : GOK g)
    (hidem : ∀ r, g (g r) = g r) (s : List Char) :
    mapRuns g (mapRuns g s) = mapRuns g s := by
  rw [mapRuns_comp g g hg s.length s (Nat.le_refl _)]
  exact mapRuns_congr _ _ (fun r _ _ => hidem r) s.length s (Nat.le_refl _)

theorem mapRuns_id : ∀ n (s : List Char), s.length ≤ n → mapRuns (fun r => r) s = s := by
  intro n
  induction n with
  | zero =>
    intro s hs
    have hnil : s = [] := List.eq_nil_of_length_eq_zero (Nat.le_zero.mp hs)
    subst hnil
    exact mapRuns_nil _
  | succ n ih =>
    intro s hs
    cases s with
    | nil => exact mapRuns_nil _
    | cons c rest =>
      rw [List.length_cons] at hs
      by_cases hwc : isWordChar c = true
      · rw [mapRuns_cons_word _ _ hwc,
          ih (rest.dropWhile isWordChar)
            (le_trans (List.dropWhile_sublist _).length_le (by omega)),
          List.cons_append, List.takeWhile_append_dropWhile]
      · have hc : isWordChar c = false := by
          cases hq : isWordChar c with
          | false => rfl
          | true => exact absurd hq hwc
        rw [mapRuns_cons_nonword _ _ hc, ih rest (by omega)]

theorem collapsedOK_pstrip_collapse (x : List Char) :
    collapsedOK (pstrip (collapse x)) = true := by
  have hOK : collapsedOK (collapse x) = true := collapsedOK_collapse x.length x (Nat.le_refl _)
  have hOK2 : collapsedOK (lstrip (collapse x)) = true := collapsedOK_dropWhile isSpace _ hOK
  unfold pstrip
  obtain ⟨hdec, _⟩ := rstrip_decomp (lstrip (collapse x))
  exact collapsedOK_append_left _ _ (hdec ▸ hOK2)

theorem collapse_pstrip_collapse (x : List Char) :
    collapse (pstrip (collapse x)) = pstrip (collapse x) :=
  collapse_of_collapsedOK _ (collapsedOK_pstrip_collapse x)

theorem cleanField_nil (f : List Char) : cleanField f [] = [] := by
  unfold cleanField
  rw [if_pos rfl]

theorem cleanField_color_eq {f : List Char} (hf : lowerL f = "color".data) (v : List Char)
    (hv : v ≠ []) : cleanField f v = pstrip (collapse (colorSubs (pstrip v))) := by
  unfold cleanField
  rw [if_neg hv]
  dsimp only
  rw [hf, if_pos rfl]

theorem cleanField_material_eq {f : List Char} (hf : lowerL f = "material".data)
    (v : List Char) (hv : v ≠ []) :
    cleanField f v = pstrip (collapse (materialSubs (pstrip v))) := by
  unfold cleanField
  rw [if_neg hv]
  dsimp only
  rw [hf, if_neg (by decide), if_pos rfl]

theorem cleanField_dim_eq {f : List Char} (hf : lowerL f = "dimensions".data)
    (v : List Char) (hv : v ≠ []) :
    cleanField f v = pstrip (collapse (dimSubs (pstrip v))) := by
  unfold cleanField
  rw [if_neg hv]
  dsimp only
  rw [hf, if_neg (by decide), if_neg (by decide), if_pos rfl]

theorem cleanField_other_eq {f : List Char} (hc : lowerL f ≠ "color".data)
    (hm : lowerL f ≠ "material".data) (hd : lowerL f ≠ "dimensions".data)
    (v : List Char) (hv : v ≠ []) :
    cleanField f v = pstrip (collapse (pstrip v)) := by
  unfold cleanField
  rw [if_neg hv]
  dsimp only
  rw [if_neg hc, if_neg hm, if_neg hd]

theorem cleanField_idem_core {g subs : List Char → List Char} (hg : GOK g)
    (hidem : ∀ r, g (g r) = g r) (hsubs : ∀ z, subs z = mapRuns g z) {f : List Char}
    (hbranch : ∀ w, w ≠ [] → cleanField f w = pstrip (collapse (subs (pstrip w))))
    (v : List Char) (hv : v ≠ []) :
    cleanField f (cleanField f v) = cleanField f v := by
  have hyx : cleanField f v = pstrip (collapse (mapRuns g (pstrip v))) := by
    rw [hbranch v hv, hsubs]
  by_cases hy0 : cleanField f v = []
  · rw [hy0, cleanField_nil]
  · have hfix : mapRuns g (mapRuns g (pstrip v)) = mapRuns g (pstrip v) :=
      mapRuns_self_fix hg hidem (pstrip v)
    have hgy : mapRuns g (pstrip (collapse (mapRuns g (pstrip v))))
        = pstrip (collapse (mapRuns g (pstrip v))) :=
      mapRuns_fix_pstrip (mapRuns_fix_collapse hg hfix)
    have hcolY := collapse_pstrip_collapse (mapRuns g (pstrip v))
    have hpsY := pstrip_pstrip (collapse (mapRuns g (pstrip v)))
    rw [hbranch _ hy0, hyx, hsubs, hpsY, hgy, hcolY, hpsY]

theorem cleanField_idem (f v : List Char) : cleanField f (cleanField f v) = cleanField f v := by
  by_cases hv : v = []
  · subst hv
    rw [cleanField_nil, cleanField_nil]
  · by_cases hc : lowerL f = "color".data
    · exact cleanField_idem_core gColor_GOK gColor_idem colorSubs_eq
        (fun w hw => cleanField_color_eq hc w hw) v hv
    · by_cases hm : lowerL f = "material".data
      · exact cleanField_idem_core gMaterial_GOK gMaterial_idem materialSubs_eq
          (fun w hw => cleanField_material_eq hm w hw) v hv
      · by_cases hd : lowerL f = "dimensions".data
        · exact cleanField_idem_core gDim_GOK gDim_idem dimSubs_eq
            (fun w hw => cleanField_dim_eq hd w hw) v hv
        · exact cleanField_idem_core (show GOK (fun r => r) from fun r hr hw => ⟨hr, hw⟩)
            (fun r => rfl)
            (show ∀ z : List Char, (fun z : List Char => z) z = mapRuns (fun r => r) z from
              fun z => (mapRuns_id z.length z (Nat.le_refl _)).symm)
            (fun w hw => cleanField_other_eq hc hm hd w hw) v hv

/-- C6.  For every recognized field name (`color`, `material`,
`dimensions`, compared case-insensitively) and every string, the
`cleaner_tool` normalizer is idempotent:
`normalize(f, normalize(f, v)) = normalize(f, v)`. -/
theorem c6_cleaner_idem (f v : List Char)
    (_hf : lowerL f = "color".data ∨ lowerL f = "material".data
      ∨ lowerL f = "dimensions".data) :
    cleanField f (cleanField f v) = cleanField f v :=
  cleanField_idem f v

/-- Witness for C6 at the field name `Color` (case-insensitive match)
and the value `" BLK  wht "`. -/
theorem c6_cleaner_idem_witness :
    (lowerL "Color".data = "color".data ∨ lowerL "Color".data = "material".data
      ∨ lowerL "Color".data = "dimensions".data)
    ∧ cleanField "Color".data (cleanField "Color".data " BLK  wht ".data)
        = cleanField "Color".data " BLK  wht ".data :=
  ⟨Or.inl (by decide),
   c6_cleaner_idem "Color".data " BLK  wht ".data (Or.inl (by decide))⟩

/-- C7 (amended).  For unrecognized field names the cleaner applies no
token replacement, but it still collapses whitespace runs to single
spaces and trims (so the raw input is not returned unchanged in
general); an empty (falsy) input is returned unchanged for every field
name; and for every field name and nonempty input the output is
whitespace-collapsed and trimmed. -/
theorem c7_passthrough_whitespace :
    (∀ f v : List Char, lowerL f ≠ "color".data → lowerL f ≠ "material".data →
        lowerL f ≠ "dimensions".data →
        cleanField f v = if v = [] then v else pstrip (collapse (pstrip v)))
      ∧ (∀ f : List Char, cleanField f [] = [])
      ∧ (∀ f v : List Char, v ≠ [] →
          collapsedOK (cleanField f v) = true
            ∧ pstrip (cleanField f v) = cleanField f v) := by
  have hshape : ∀ f v : List Char, v ≠ [] → ∃ z, cleanField f v = pstrip (collapse z) := by
    intro f v hv
    by_cases hc : lowerL f = "color".data
    · exact ⟨colorSubs (pstrip v), cleanField_color_eq hc v hv⟩
    · by_cases hm : lowerL f = "material".data
      · exact ⟨materialSubs (pstrip v), cleanField_material_eq hm v hv⟩
      · by_cases hd : lowerL f = "dimensions".data
        · exact ⟨dimSubs (pstrip v), cleanField_dim_eq hd v hv⟩
        · exact ⟨pstrip v, cleanField_other_eq hc hm hd v hv⟩
  refine ⟨?_, cleanField_nil, ?_⟩
  · intro f v hc hm hd
    by_cases hv : v = []
    · subst hv
      rw [cleanField_nil, if_pos rfl]
    · rw [cleanField_other_eq hc hm hd v hv, if_neg hv]
  · intro f v hv
    obtain ⟨z, hz⟩ := hshape f v hv
    rw [hz]
    exact ⟨collapsedOK_pstrip_collapse z, pstrip_pstrip (collapse z)⟩

/-- Witness for C7 at the unrecognized field `brand` with value
`" a  b "`, and at the recognized field `color`. -/
theorem c7_passthrough_whitespace_witness :
    (lowerL "brand".data ≠ "color".data ∧ lowerL "brand".data ≠ "material".data
      ∧ lowerL "brand".data ≠ "dimensions".data
      ∧ cleanField "brand".data " a  b ".data
          = (if (" a  b ".data : List Char) = [] then " a  b ".data
            else pstrip (collapse (pstrip " a  b ".data))))
    ∧ cleanField "color".data [] = []
    ∧ (" x  y ".data ≠ ([] : List Char)
      ∧ collapsedOK (cleanField "color".data " x  y ".data) = true
      ∧ pstrip (cleanField "color".data " x  y ".data)
          = cleanField "color".data " x  y ".data) :=
  ⟨⟨by decide, by decide, by decide,
    c7_passthrough_whitespace.1 "brand".data " a  b ".data (by decide) (by decide) (by decide)⟩,
   c7_passthrough_whitespace.2.1 "color".data,
   ⟨by decide,
    (c7_passthrough_whitespace.2.2 "color".data " x  y ".data (by decide)).1,
    (c7_passthrough_whitespace.2.2 "color".data " x  y ".data (by decide)).2⟩⟩

/-- Counterexample to C7 as stated: `brand` is not a recognized field
name, yet the cleaner does not return the raw input unchanged — the
whitespace collapse and trim apply to every field name. -/
theorem c7_counterexample :
    lowerL "brand".data ≠ "color".data
      ∧ lowerL "brand".data ≠ "material".data
      ∧ lowerL "brand".data ≠ "dimensions".data
      ∧ cleanField "brand".data "a  b".data ≠ "a  b".data
      ∧ cleanField "brand".data "a  b".data = "a b".data := by
  refine ⟨by decide, by decide, by decide, by decide, by decide⟩

end MetadataAgent
